import Mathlib

/-!
# Verification of the live recitation alignment and session engine

Shallow embedding of the core of the `Fast_Api` repository
(`services/alignment.py`, `services/live_session.py`,
`services/memory_sessions.py`) and proofs of the frozen claims about it.

Text is modelled as `List Char` (Python `str` is a sequence of code
points).  All real arithmetic of the source (Python floats) is modelled
with exact rationals `ℚ`; the quantities involved are small dyadic/decimal
blends of ratios, and every exact value claimed by the spec (`0.0`, `1.0`,
the thresholds `0.3` and `0.7`) is reproduced exactly by the rational
model.
-/

namespace FastApi

/-! ## Character classes and text normalization (`alignment.py`) -/

/-- Python `\s` (whitespace) on the characters this system processes. -/
def isWs (c : Char) : Bool :=
  c = ' ' ∨ c = '\t' ∨ c = '\n' ∨ c = '\r' ∨ c.val = 11 ∨ c.val = 12

/-- `unicodedata.combining(c) != 0` for the scripts the system processes:
combining diacritical marks (U+0300–U+036F), Arabic tashkeel and Quranic
annotation marks (U+064B–U+065F, U+0670, U+06D6–U+06DC, U+06DF–U+06E4,
U+06E7–U+06E8, U+06EA–U+06ED, U+08D3–U+08FF), and combining marks for
symbols (U+20D0–U+20F0).  Characters outside these ranges that occur in
the corpus are NFKD-inert, so `unicodedata.normalize('NFKD', ·)` followed
by dropping combining code points coincides with this filter on them. -/
def isCombining (c : Char) : Bool :=
  (0x300 ≤ c.val ∧ c.val ≤ 0x36F) ∨
  (0x64B ≤ c.val ∧ c.val ≤ 0x65F) ∨ c.val = 0x670 ∨
  (0x6D6 ≤ c.val ∧ c.val ≤ 0x6DC) ∨ (0x6DF ≤ c.val ∧ c.val ≤ 0x6E4) ∨
  (0x6E7 ≤ c.val ∧ c.val ≤ 0x6E8) ∨ (0x6EA ≤ c.val ∧ c.val ≤ 0x6ED) ∨
  (0x8D3 ≤ c.val ∧ c.val ≤ 0x8FF) ∨ (0x20D0 ≤ c.val ∧ c.val ≤ 0x20F0)

/-- The fixed punctuation set stripped by `normalize_latin_text`:
`[.,;:!?()"'-]`. -/
def isPunct (c : Char) : Bool :=
  c = '.' ∨ c = ',' ∨ c = ';' ∨ c = ':' ∨ c = '!' ∨ c = '?' ∨
  c = '(' ∨ c = ')' ∨ c = '"' ∨ c = '\'' ∨ c = '-'

/-- Split on whitespace runs, discarding empty fragments: Python
`str.split()` with no argument.  `acc` is the (reversed) current word. -/
def splitWsAux : List Char → List Char → List (List Char)
  | [], acc => if acc = [] then [] else [acc.reverse]
  | c :: rest, acc =>
    if isWs c then
      if acc = [] then splitWsAux rest [] else acc.reverse :: splitWsAux rest []
    else splitWsAux rest (c :: acc)

/-- Python `str.split()` (no separator): maximal non-whitespace runs. -/
def splitWs (l : List Char) : List (List Char) := splitWsAux l []

/-- `re.sub(r'\s+', ' ', text.strip())`: trim and collapse whitespace runs
to single spaces — equivalently the whitespace-separated words re-joined
with single spaces. -/
def collapseWs (l : List Char) : List Char :=
  List.intercalate [' '] (splitWs l)

/-- `normalize_arabic_text`: drop combining marks (NFKD is the identity on
the remaining code points of the processed scripts), collapse whitespace,
lowercase. -/
def normalize_arabic_text (l : List Char) : List Char :=
  (collapseWs (l.filter (fun c => ¬ isCombining c))).map Char.toLower

/-- `normalize_latin_text`: lowercase, trim/collapse whitespace, then strip
the fixed punctuation set (in the source's order: the punctuation removal
happens after the whitespace collapse). -/
def normalize_latin_text (l : List Char) : List Char :=
  (collapseWs (l.map Char.toLower)).filter (fun c => ¬ isPunct c)

/-- `_is_arabic`: the text contains at least one code point of the Arabic
Unicode blocks `[؀-ۿݐ-ݿࢠ-ࣿ]`. -/
def is_arabic (l : List Char) : Bool :=
  l.any fun c =>
    (0x600 ≤ c.val ∧ c.val ≤ 0x6FF) ∨ (0x750 ≤ c.val ∧ c.val ≤ 0x77F) ∨
    (0x8A0 ≤ c.val ∧ c.val ≤ 0x8FF)

/-- The two normalizations chosen by `calculate_similarity` for a pair of
texts: Arabic normalization, overridden by the Latin one when either text
fails the Arabic test. -/
def pairNormalize (t1 t2 : List Char) : List Char × List Char :=
  if ¬ is_arabic t1 ∨ ¬ is_arabic t2 then
    (normalize_latin_text t1, normalize_latin_text t2)
  else (normalize_arabic_text t1, normalize_arabic_text t2)

/-! ## `difflib.SequenceMatcher` (imported and used by `alignment.py`)

The source scores strings with `SequenceMatcher(None, a, b).ratio()`.
We embed CPython's `difflib` algorithm: the `b2j` index with the autojunk
purge of popular elements (`len(b) >= 200`), `find_longest_match` (the
`j2len` inner dynamic program plus the four extension loops; with
`isjunk=None` the junk set `bjunk` is empty, so the two junk-extension
loops never fire and the two non-junk extension loops always pass their
junk test), the divide-and-conquer `get_matching_blocks` recursion, and
`ratio() = 2*M/T` with `1.0` for `T = 0`. -/

/-- All indices `j` with `b[j] = c`, ascending: `b2j` before the purge. -/
def occIdx (b : List Char) (c : Char) : List ℕ :=
  (List.range b.length).filter fun j => b.get? j = some c

/-- The autojunk popularity cutoff `n // 100 + 1`. -/
def popularCut (b : List Char) : ℕ := b.length / 100 + 1

/-- `c` is purged as popular: autojunk applies (`len(b) >= 200`) and `c`
occurs more than `n // 100 + 1` times in `b`. -/
def isPopular (b : List Char) (c : Char) : Bool :=
  200 ≤ b.length ∧ popularCut b < (occIdx b c).length

/-- `b2j[c]` after the autojunk purge. -/
def b2j (b : List Char) (c : Char) : List ℕ :=
  if isPopular b c then [] else occIdx b c

/-- The inner loop of `find_longest_match` over the candidate list
`b2j[a[i]]`: `j < blo` is skipped (`continue`), `j >= bhi` stops the scan
(`break`; the candidate list is ascending), otherwise
`k = newj2len[j] = j2len.get(j-1, 0) + 1` and the best block is replaced
when `k > bestsize`. -/
def smInner (j2len : ℕ → ℕ) (i blo bhi : ℕ) :
    List ℕ → (ℕ → ℕ) → ℕ × ℕ × ℕ → (ℕ → ℕ) × (ℕ × ℕ × ℕ)
  | [], newj, best => (newj, best)
  | j :: js, newj, best =>
    if j < blo then smInner j2len i blo bhi js newj best
    else if bhi ≤ j then (newj, best)
    else
      let k := (if j = 0 then 0 else j2len (j - 1)) + 1
      let newj' : ℕ → ℕ := fun j' => if j' = j then k else newj j'
      let best' := if best.2.2 < k then (i + 1 - k, j + 1 - k, k) else best
      smInner j2len i blo bhi js newj' best'

/-- The outer loop of `find_longest_match` over `i in range(alo, ahi)`,
threading `(j2len, best)`; `newj2len` starts empty at each step. -/
def smOuter (a b : List Char) (blo bhi : ℕ) :
    List ℕ → (ℕ → ℕ) × (ℕ × ℕ × ℕ) → (ℕ → ℕ) × (ℕ × ℕ × ℕ)
  | [], st => st
  | i :: rest, st =>
    smOuter a b blo bhi rest
      (smInner st.1 i blo bhi (b2j b (a.getD i ' ')) (fun _ => 0) st.2)

/-- First non-junk extension loop: grow the block downwards while
`besti > alo and bestj > blo and a[besti-1] == b[bestj-1]`.  The loop
decrements `besti` each pass, so `besti` passes suffice as fuel. -/
def extendLow : ℕ → List Char → List Char → ℕ → ℕ → ℕ × ℕ × ℕ → ℕ × ℕ × ℕ
  | 0, _, _, _, _, st => st
  | fuel + 1, a, b, alo, blo, (bi, bj, bs) =>
    if alo < bi ∧ blo < bj ∧ a.getD (bi - 1) ' ' = b.getD (bj - 1) ' ' then
      extendLow fuel a b alo blo (bi - 1, bj - 1, bs + 1)
    else (bi, bj, bs)

/-- Second non-junk extension loop: grow the block upwards while
`besti+bestsize < ahi and bestj+bestsize < bhi and
a[besti+bestsize] == b[bestj+bestsize]`.  Each pass increments `bestsize`
and requires `besti + bestsize < ahi`, so `ahi` passes suffice as fuel. -/
def extendHigh : ℕ → List Char → List Char → ℕ → ℕ → ℕ × ℕ × ℕ → ℕ × ℕ × ℕ
  | 0, _, _, _, _, st => st
  | fuel + 1, a, b, ahi, bhi, (bi, bj, bs) =>
    if bi + bs < ahi ∧ bj + bs < bhi ∧ a.getD (bi + bs) ' ' = b.getD (bj + bs) ' ' then
      extendHigh fuel a b ahi bhi (bi, bj, bs + 1)
    else (bi, bj, bs)

/-- `find_longest_match(alo, ahi, blo, bhi)` with `isjunk=None`:
the `j2len` dynamic program, then the two live extension loops (the two
junk-extension loops never extend since `bjunk` is empty). -/
def find_longest_match (a b : List Char) (alo ahi blo bhi : ℕ) : ℕ × ℕ × ℕ :=
  let m := (smOuter a b blo bhi (List.range' alo (ahi - alo)) (fun _ => 0, (alo, blo, 0))).2
  extendHigh ahi a b ahi bhi (extendLow m.1 a b alo blo m)

/-- Total size of the matching blocks found by `get_matching_blocks` on a
subrange: the block from `find_longest_match` plus the recursion on the
two flanks (the queue order does not affect the total).  Each recursive
call strictly shrinks `(ahi - alo) + (bhi - blo)`, so that sum suffices as
fuel. -/
def mtFuel (a b : List Char) : ℕ → ℕ → ℕ → ℕ → ℕ → ℕ
  | 0, _, _, _, _ => 0
  | fuel + 1, alo, ahi, blo, bhi =>
    let m := find_longest_match a b alo ahi blo bhi
    if m.2.2 = 0 then 0
    else
      m.2.2 + (if alo < m.1 ∧ blo < m.2.1 then mtFuel a b fuel alo m.1 blo m.2.1 else 0)
        + (if m.1 + m.2.2 < ahi ∧ m.2.1 + m.2.2 < bhi then
            mtFuel a b fuel (m.1 + m.2.2) ahi (m.2.1 + m.2.2) bhi else 0)

/-- `M`: the total size of all matching blocks of `a` against `b`. -/
def matchingTotal (a b : List Char) : ℕ :=
  mtFuel a b (a.length + b.length) 0 a.length 0 b.length

/-- `SequenceMatcher(None, a, b).ratio() = 2.0 * M / T`, and `1.0` when
`T = len(a) + len(b) = 0`. -/
def seqRatio (a b : List Char) : ℚ :=
  if a.length + b.length = 0 then 1
  else 2 * (matchingTotal a b : ℚ) / ((a.length : ℚ) + (b.length : ℚ))

/-! ## `Levenshtein.distance` (imported and used by `alignment.py`) -/

/-- Unit-cost edit distance (insert, delete, substitute), the textbook
recurrence computed by `Levenshtein.distance`.  Every recursive call
shortens the pair of lists, so `|xs| + |ys|` passes of fuel suffice; the
fuel-exhausted case is unreachable from `levDistance`. -/
def levFuel : ℕ → List Char → List Char → ℕ
  | _, [], ys => ys.length
  | _, x :: xs, [] => (x :: xs).length
  | 0, _ :: _, _ :: _ => 0
  | fuel + 1, x :: xs, y :: ys =>
    min ((if x = y then 0 else 1) + levFuel fuel xs ys)
      (min (1 + levFuel fuel (x :: xs) ys) (1 + levFuel fuel xs (y :: ys)))

/-- `Levenshtein.distance(a, b)`. -/
def levDistance (xs ys : List Char) : ℕ :=
  levFuel (xs.length + ys.length) xs ys

/-! ## `AlignmentService` (`alignment.py`) -/

/-- The default `similarity_threshold` of the global `alignment_service`
instance. -/
def similarity_threshold : ℚ := 7 / 10

/-- Inner scan of `_calculate_word_similarity` over `enumerate(words2)`:
skip consumed indices, score with `SequenceMatcher(None, word1, word2)
.ratio()`, keep the strictly best score that also meets the threshold. -/
def cwsScan (w1 : List Char) (used : List ℕ) :
    List (ℕ × List Char) → Option ℕ × ℚ → Option ℕ × ℚ
  | [], best => best
  | (i, w2) :: rest, best =>
    if i ∈ used then cwsScan w1 used rest best
    else
      let s := seqRatio w1 w2
      cwsScan w1 used rest
        (if best.2 < s ∧ similarity_threshold ≤ s then (some i, s) else best)

/-- Outer loop of `_calculate_word_similarity` over `words1`, accumulating
the consumed-index set and the sum of best-match scores. -/
def cwsFold (words2 : List (List Char)) :
    List (List Char) → List ℕ → ℚ → ℚ × List ℕ
  | [], used, msum => (msum, used)
  | w1 :: ws, used, msum =>
    match cwsScan w1 used words2.enum (none, 0) with
    | (some i, s) => cwsFold words2 ws (i :: used) (msum + s)
    | (none, _) => cwsFold words2 ws used msum

/-- `_calculate_word_similarity(words1, words2)`. -/
def calculate_word_similarity (words1 words2 : List (List Char)) : ℚ :=
  if words1 = [] ∧ words2 = [] then 1
  else if words1 = [] ∨ words2 = [] then 0
  else
    let total_words := max words1.length words2.length
    if 0 < total_words then (cwsFold words2 words1 [] 0).1 / (total_words : ℚ)
    else 0

/-- `calculate_similarity(text1, text2)`: 0.0 on an empty input, else the
weighted blend of the `SequenceMatcher` ratio, the Levenshtein similarity
`1 - d/maxlen` (1.0 when both normalized strings are empty), and — when
either normalized string splits into more than one token — the greedy
word-level similarity. -/
def calculate_similarity (text1 text2 : List Char) : ℚ :=
  if text1 = [] ∨ text2 = [] then 0
  else
    let n := pairNormalize text1 text2
    let seqSim := seqRatio n.1 n.2
    let maxLen := max n.1.length n.2.length
    let levSim : ℚ :=
      if maxLen = 0 then 1 else 1 - (levDistance n.1 n.2 : ℚ) / (maxLen : ℚ)
    let words1 := splitWs n.1
    let words2 := splitWs n.2
    if 1 < words1.length ∨ 1 < words2.length then
      seqSim * (4/10) + levSim * (4/10) +
        calculate_word_similarity words1 words2 * (2/10)
    else seqSim * (6/10) + levSim * (4/10)

/-- `TranscriptStatus` (`models/session.py`). -/
inductive TranscriptStatus where
  | matched
  | mismatched
  | skipped
  | provis_matched
  | provis_mismatched
deriving DecidableEq, Repr

/-- `TranscriptResult` (`models/session.py`). -/
structure TranscriptResult where
  position : ℕ
  expected : List Char
  spoken : Option (List Char)
  status : TranscriptStatus
  similarity_score : Option ℚ
deriving DecidableEq, Repr

/-- The `summary` dictionary of `compare_transcript`. -/
structure Summary where
  matched : ℕ
  mismatched : ℕ
  skipped : ℕ
  total : ℕ
deriving DecidableEq, Repr

/-- Per-word increments to the matched/mismatched/skipped counters. -/
structure Counts where
  matched : ℕ
  mismatched : ℕ
  skipped : ℕ
deriving DecidableEq, Repr

/-- Pointwise sum of counter increments. -/
def Counts.add (x y : Counts) : Counts :=
  ⟨x.matched + y.matched, x.mismatched + y.mismatched, x.skipped + y.skipped⟩

/-- The spoken-transcript normalization of `compare_transcript`: Arabic
normalization, overridden by the Latin one when the raw transcript fails
the Arabic test. -/
def normalizeSpoken (spoken : List Char) : List Char :=
  if ¬ is_arabic spoken then normalize_latin_text spoken
  else normalize_arabic_text spoken

/-- The preference order over spoken indices used by `compare_transcript`:
`range(search_start, len(spoken_words)) + range(0, search_start)` with
`search_start = min(position, len(spoken_words) - 1)`. -/
def searchRange (p len : ℕ) : List ℕ :=
  List.range' (min p (len - 1)) (len - min p (len - 1)) ++
    List.range (min p (len - 1))

/-- The candidate scan of `compare_transcript`: over the preference order,
skip consumed indices and keep the strictly highest
`calculate_similarity(expected_word, spoken_words[idx])`. -/
def ctScan (w : List Char) (spoken : List (List Char)) (used : List ℕ) :
    List ℕ → Option ℕ × ℚ → Option ℕ × ℚ
  | [], best => best
  | j :: js, best =>
    if j ∈ used then ctScan w spoken used js best
    else
      ctScan w spoken used js
        (let s := calculate_similarity w (spoken.getD j []);
         if best.2 < s then (some j, s) else best)

/-- One iteration of the `compare_transcript` loop body for the expected
word `w` at position `p`: returns the `TranscriptResult`, the updated
consumed-index set, and the summary increments. -/
def compareStep (spoken : List (List Char)) (is_final : Bool) (p : ℕ)
    (w : List Char) (used : List ℕ) : TranscriptResult × List ℕ × Counts :=
  if spoken = [] then
    (⟨p, w, none, .skipped, none⟩, used, ⟨0, 0, if is_final then 1 else 0⟩)
  else
    match ctScan w spoken used (searchRange p spoken.length) (none, 0) with
    | (some j, s) =>
      if similarity_threshold ≤ s then
        (⟨p, w, some (spoken.getD j []),
            if is_final then .matched else .provis_matched, some s⟩,
          j :: used, ⟨if is_final then 1 else 0, 0, 0⟩)
      else if 3/10 < s then
        (⟨p, w, some (spoken.getD j []),
            if is_final then .mismatched else .provis_mismatched, some s⟩,
          j :: used, ⟨0, if is_final then 1 else 0, 0⟩)
      else
        (⟨p, w, none, .skipped, none⟩, used, ⟨0, 0, if is_final then 1 else 0⟩)
    | (none, _) =>
      (⟨p, w, none, .skipped, none⟩, used, ⟨0, 0, if is_final then 1 else 0⟩)

/-- The `compare_transcript` loop over the expected words, threading the
position counter and the consumed-index set. -/
def compareLoop (spoken : List (List Char)) (is_final : Bool) :
    List (List Char) → ℕ → List ℕ → List TranscriptResult × Counts
  | [], _, _ => ([], ⟨0, 0, 0⟩)
  | w :: ws, p, used =>
    let st := compareStep spoken is_final p w used
    let rest := compareLoop spoken is_final ws (p + 1) st.2.1
    (st.1 :: rest.1, st.2.2.add rest.2)

/-- `compare_transcript(expected_words, spoken_transcript, is_final)`. -/
def compare_transcript (expected : List (List Char)) (spoken : List Char)
    (is_final : Bool) : List TranscriptResult × Summary :=
  if expected = [] then ([], ⟨0, 0, 0, 0⟩)
  else
    let spoken_words := splitWs (normalizeSpoken spoken)
    let r := compareLoop spoken_words is_final expected 0 []
    (r.1, ⟨r.2.matched, r.2.mismatched, r.2.skipped, expected.length⟩)

/-! ## Position index helpers (`alignment.py`) -/

/-- Decimal digit character. -/
def digitChar (d : ℕ) : Char := Char.ofNat (48 + d)

/-- Python `str(n)` for a natural number: its decimal digits, most
significant first (`Nat.digits` lists them least significant first). -/
def natToDec (n : ℕ) : List Char :=
  if n = 0 then ['0'] else ((Nat.digits 10 n).map digitChar).reverse

/-- `generate_position_index(surah_id, ayah, word_position)`:
the f-string `"{surah_id}.{ayah}.{word_position}"`. -/
def generate_position_index (surah_id ayah word_position : ℕ) : List Char :=
  natToDec surah_id ++ '.' :: natToDec ayah ++ '.' :: natToDec word_position

/-- Python `str.split('.')`: split at every dot, keeping empty parts. -/
def splitDots : List Char → List (List Char)
  | [] => [[]]
  | c :: rest =>
    if c = '.' then [] :: splitDots rest
    else
      match splitDots rest with
      | [] => [[c]]
      | p :: ps => (c :: p) :: ps

/-- Decimal digit test (code points 48–57). -/
def isDigitCh (c : Char) : Bool := 48 ≤ c.toNat ∧ c.toNat ≤ 57

/-- Value of a decimal digit character. -/
def digitVal (c : Char) : ℕ := c.toNat - 48

/-- Accumulating decimal parse of a digit-only string. -/
def parseDigits : List Char → ℕ → Option ℕ
  | [], acc => some acc
  | c :: rest, acc =>
    if isDigitCh c then parseDigits rest (acc * 10 + digitVal c) else none

/-- Strip leading and trailing whitespace. -/
def trimWs (l : List Char) : List Char :=
  ((l.dropWhile isWs).reverse.dropWhile isWs).reverse

/-- Python `int(s)`: optional surrounding whitespace, optional sign, then a
non-empty digit string (digit-group underscores are not modelled; no claim
involves them). `none` models the raised `ValueError`. -/
def pyInt (l : List Char) : Option ℤ :=
  match trimWs l with
  | [] => none
  | c :: rest =>
    if c = '-' then
      if rest = [] then none else (parseDigits rest 0).map fun n => -(n : ℤ)
    else if c = '+' then
      if rest = [] then none else (parseDigits rest 0).map fun n => (n : ℤ)
    else if isDigitCh c then (parseDigits (c :: rest) 0).map fun n => (n : ℤ)
    else none

/-- `parse_position_index(index)`: split on dots, require exactly three
integer-parseable parts; `Except.error` models the raised `ValueError`
(the spec's `FormatError`). -/
def parse_position_index (idx : List Char) : Except Unit (ℤ × ℤ × ℤ) :=
  match splitDots idx with
  | [p0, p1, p2] =>
    match pyInt p0, pyInt p1, pyInt p2 with
    | some a, some b, some c => .ok (a, b, c)
    | _, _, _ => .error ()
  | _ => .error ()

/-! ## Session engine (`live_session.py`)

The external corpus provider (`supabase_service`) is modelled as a pure
lookup structure; a `none` lookup models the absent/failed fetch.  The
word array of a unit is the provider's `words_array or arabic.split()`
fallback, delivered here directly as the unit's word list. -/

/-- `SessionStatus` (`models/session.py`). -/
inductive SessionStatus where
  | active
  | ended
deriving DecidableEq, Repr

/-- The external corpus provider: `get_ayat(surah_id, ayah)` returning the
unit's word array, and `get_surat_info(surah_id).jumlahayat`, the number
of units in the surah. -/
structure Corpus where
  get_ayat : ℕ → ℕ → Option (List (List Char))
  jumlahayat : ℕ → ℕ

/-- The in-memory session data of `LiveSessionService.active_sessions`:
current unit reference, cached word array, position, status. -/
structure SessState where
  surah_id : ℕ
  ayah : ℕ
  position : ℕ
  words : List (List Char)
  status : SessionStatus
deriving DecidableEq, Repr

/-- `sum(1 for r in results if r.status.value in ["matched"])`: only fully
matched words advance the position. -/
def matchedCount (results : List TranscriptResult) : ℕ :=
  (results.filter fun r => r.status = .matched).length

/-- The position update of a final `update_session`:
`new_position = current_position + matched_words`, where the comparison
ran over the 10-word lookahead window
`current_words[current_position : current_position + 10]`. -/
def update_position (words : List (List Char)) (position : ℕ)
    (transcript : List Char) : ℕ :=
  position +
    matchedCount
      (compare_transcript ((words.drop position).take 10) transcript true).1

/-- Iterated final position updates over a sequence of transcripts against
a fixed word array. -/
def updateRun (words : List (List Char)) (position : ℕ)
    (ts : List (List Char)) : ℕ :=
  ts.foldl (update_position words) position

/-- `_advance_to_next_ayah` in `SessionMode.SURAH`: the successor unit is
`ayah + 1` in the same surah; past `jumlahayat` the session is ended
(`end_session`); a failed fetch of an existing successor raises inside
`_update_session_ayah`, is swallowed by the surrounding `except`, and
leaves the session unchanged. -/
def advance_to_next_ayah (c : Corpus) (s : SessState) : SessState :=
  let next_ayah := s.ayah + 1
  if next_ayah ≤ c.jumlahayat s.surah_id then
    match c.get_ayat s.surah_id next_ayah with
    | some ws => { s with ayah := next_ayah, position := 0, words := ws }
    | none => s
  else { s with status := .ended }

/-- The state change of a final `update_session` call: add the matched
count of the 10-word-window comparison to the position, then advance to
the next unit when the new position has reached the end of the word
array. -/
def update_session_final (c : Corpus) (s : SessState)
    (transcript : List Char) : SessState :=
  let p := update_position s.words s.position transcript
  let s' := { s with position := p }
  if s.words.length ≤ p then advance_to_next_ayah c s' else s'

/-- `move_ayah_session(session_id, new_ayah, new_position)`
(`live_session.py`): validate that the target unit exists in the current
surah (`Except.error` models the raised `ValueError`, with no mutation),
reset an out-of-range position (`new_position >= len(new_words)`) to 0,
then commit the unit/position update. -/
def move_ayah_session (c : Corpus) (s : SessState)
    (new_ayah new_position : ℕ) : Except Unit SessState :=
  match c.get_ayat s.surah_id new_ayah with
  | none => .error ()
  | some new_words =>
    let pos := if new_words.length ≤ new_position then 0 else new_position
    .ok { s with ayah := new_ayah, position := pos, words := new_words }

/-! ## Memory session service and broadcast hub (`memory_sessions.py`)

Observer connections are modelled by identifiers `ℕ`; the delivery
environment `fails o = true` means `o.send_json` raises. -/

/-- The session record of `MemorySessionStore`. -/
structure MemSession where
  surah_id : ℕ
  ayah : ℕ
  position : ℕ
deriving DecidableEq, Repr

/-- The loop of `_broadcast_ayah_move` over a snapshot copy of the
observer list: a failed send removes that observer from the live registry
(`remove_websocket`, first occurrence) and the loop continues; returns
(observers delivered to, final registry). -/
def broadcastRemoveLoop (fails : ℕ → Bool) :
    List ℕ → List ℕ → List ℕ × List ℕ
  | [], registry => ([], registry)
  | w :: ws, registry =>
    if fails w then broadcastRemoveLoop fails ws (registry.erase w)
    else
      let r := broadcastRemoveLoop fails ws registry
      (w :: r.1, r.2)

/-- `_broadcast_ayah_move`: iterate over a copy of the registry, dropping
failed observers from the registry as it goes. -/
def broadcast_ayah_move (fails : ℕ → Bool) (registry : List ℕ) :
    List ℕ × List ℕ :=
  broadcastRemoveLoop fails registry registry

/-- The loop of `_broadcast_session_ended`: a failed send is only logged;
the registry is left untouched. -/
def broadcastKeepLoop (fails : ℕ → Bool) : List ℕ → List ℕ
  | [] => []
  | w :: ws =>
    if fails w then broadcastKeepLoop fails ws
    else w :: broadcastKeepLoop fails ws

/-- `_broadcast_session_ended`: deliver to every observer that accepts,
never deregistering anyone. -/
def broadcast_session_ended (fails : ℕ → Bool) (registry : List ℕ) :
    List ℕ × List ℕ :=
  (broadcastKeepLoop fails registry, registry)

/-- `MemoryLiveSessionService.move_ayah`: validate that the target unit
exists (`Except.error` models the raised `ValueError`, with no mutation),
then store `request.ayah`/`request.position` unchanged — there is no range
check on the position — and broadcast the move.  Returns the updated
session, the observers delivered to, and the surviving registry. -/
def memory_move_ayah (c : Corpus) (s : MemSession) (registry : List ℕ)
    (fails : ℕ → Bool) (new_ayah new_position : ℕ) :
    Except Unit (MemSession × List ℕ × List ℕ) :=
  match c.get_ayat s.surah_id new_ayah with
  | none => .error ()
  | some _ =>
    let s' := { s with ayah := new_ayah, position := new_position }
    let b := broadcast_ayah_move fails registry
    .ok (s', b.1, b.2)

/-! ## Proof-side predicates and helper definitions -/

/-- Invariant of the `j2len` chain-length tables: values are bounded by
the number of processed rows, and a nonzero entry at key `j` records a
chain that lies inside the `b`-window `[blo, bhi)`. -/
def J2P (blo bhi u : ℕ) (f : ℕ → ℕ) : Prop :=
  ∀ j, f j ≤ u ∧ (f j ≠ 0 → blo ≤ j ∧ j < bhi ∧ blo + f j ≤ j + 1)

/-- Invariant of the best-block triples `(besti, bestj, bestsize)`
produced by `find_longest_match`: the block lies inside the window, and a
zero-size block still carries the initial `(alo, blo)` anchors. -/
def GoodBest (alo ahi blo bhi : ℕ) (t : ℕ × ℕ × ℕ) : Prop :=
  alo ≤ t.1 ∧ blo ≤ t.2.1 ∧
    (t.2.2 = 0 → t.1 = alo ∧ t.2.1 = blo) ∧
    (t.2.2 ≠ 0 → t.1 + t.2.2 ≤ ahi ∧ t.2.1 + t.2.2 ≤ bhi)

/-- Scan invariant for `cwsScan`: the best score stays in `[0, 1]` and a
recorded index is unconsumed and in range. -/
def ScanOk (len2 : ℕ) (used : List ℕ) (best : Option ℕ × ℚ) : Prop :=
  0 ≤ best.2 ∧ best.2 ≤ 1 ∧ ∀ i, best.1 = some i → i ∉ used ∧ i < len2

/-- Scan invariant for `ctScan`: the best score is non-negative, a `none`
index means no candidate ever improved on the initial 0, and a recorded
index is an unconsumed in-range spoken index whose similarity is exactly
the recorded best score. -/
def CtInv (w : List Char) (spoken : List (List Char)) (used : List ℕ)
    (best : Option ℕ × ℚ) : Prop :=
  0 ≤ best.2 ∧ (best.1 = none → best.2 = 0) ∧
    ∀ j, best.1 = some j → j ∉ used ∧ j < spoken.length ∧
      calculate_similarity w (spoken.getD j []) = best.2

/-- The best similarity score of an expected word against the unconsumed
spoken tokens (floored at 0): the order-free maximum that the candidate
scan of `compare_transcript` computes. -/
def bestUnconsumed (w : List Char) (spoken : List (List Char))
    (used : List ℕ) : ℚ :=
  ((List.range spoken.length).filter fun j => decide (j ∉ used)).foldr
    (fun j m => max (calculate_similarity w (spoken.getD j [])) m) 0

/-- A `j2len`-chain link of `find_longest_match` on the pair `(a, a)` with
window `[0, a.length)`: column `j` is iterated at row `i` (that is, `j` is
in `b2j[a[i]]` after the autojunk purge). -/
def linkB (a : List Char) (i j : ℕ) : Prop := j ∈ b2j a (a.getD i ' ')

instance (a : List Char) (i j : ℕ) : Decidable (linkB a i j) :=
  inferInstanceAs (Decidable (j ∈ b2j a (a.getD i ' ')))

/-- The `j2len` chain length ending at row `i`, column `j`, for the main
loop of `find_longest_match` on `(a, a)` with the full window. -/
def chain (a : List Char) : ℕ → ℕ → ℕ
  | 0, j => if linkB a 0 j then 1 else 0
  | i + 1, j =>
    if linkB a (i + 1) j then (if j = 0 then 0 else chain a i (j - 1)) + 1
    else 0

/-- Loop invariant of the main loop of `find_longest_match` on `(a, a)`
over the full window, after `t` processed rows: `bestsize` dominates every
chain seen so far, a zero-size best still sits at the window anchors, and
a nonzero best records the first chain (in row-then-column processing
order) that reached the current `bestsize`. -/
def ChainInv (a : List Char) (t : ℕ) (best : ℕ × ℕ × ℕ) : Prop :=
  (∀ i < t, ∀ j, chain a i j ≤ best.2.2) ∧
  (best.2.2 = 0 → best.1 = 0 ∧ best.2.1 = 0) ∧
  (best.2.2 ≠ 0 → ∃ iw jw, iw < t ∧ chain a iw jw = best.2.2 ∧
    best.1 = iw + 1 - best.2.2 ∧ best.2.1 = jw + 1 - best.2.2 ∧
    (∀ i' < iw, ∀ j', chain a i' j' < best.2.2) ∧
    (∀ j' < jw, chain a iw j' < best.2.2))

/-- Mid-row variant of `ChainInv`: row `i` has been processed up to
(excluding) column `ℓ`. -/
def ChainInvStep (a : List Char) (i ℓ : ℕ) (best : ℕ × ℕ × ℕ) : Prop :=
  (∀ i' < i, ∀ j, chain a i' j ≤ best.2.2) ∧
  (∀ j < ℓ, chain a i j ≤ best.2.2) ∧
  (best.2.2 = 0 → best.1 = 0 ∧ best.2.1 = 0) ∧
  (best.2.2 ≠ 0 → ∃ iw jw,
    (iw < i ∨ (iw = i ∧ jw < ℓ)) ∧ chain a iw jw = best.2.2 ∧
    best.1 = iw + 1 - best.2.2 ∧ best.2.1 = jw + 1 - best.2.2 ∧
    (∀ i' < iw, ∀ j', chain a i' j' < best.2.2) ∧
    (∀ j' < jw, chain a iw j' < best.2.2))

/-- Per-block matching property of `find_longest_match`: every position of
the returned block is an actual character match. -/
def MP (a b : List Char) (t : ℕ × ℕ × ℕ) : Prop :=
  ∀ s < t.2.2, a.getD (t.1 + s) ' ' = b.getD (t.2.1 + s) ' '

/-- Match property of a `j2len` table whose chains end at row `i`. -/
def J2M (a b : List Char) (i : ℕ) (f : ℕ → ℕ) : Prop :=
  ∀ j, f j ≠ 0 → ∀ s < f j, a.getD (i - s) ' ' = b.getD (j - s) ' '

/-! ## Bounds for the `SequenceMatcher` machinery -/

theorem GoodBest_mk {alo ahi blo bhi bi bj bs : ℕ} :
    GoodBest alo ahi blo bhi (bi, bj, bs) ↔
      (alo ≤ bi ∧ blo ≤ bj ∧ (bs = 0 → bi = alo ∧ bj = blo) ∧
        (bs ≠ 0 → bi + bs ≤ ahi ∧ bj + bs ≤ bhi)) := Iff.rfl

theorem smInner_inv {alo ahi blo bhi i u : ℕ} {j2len : ℕ → ℕ}
    (hj : J2P blo bhi u j2len) (hu : u + alo ≤ i) (hi : i < ahi) :
    ∀ (js : List ℕ) (newj : ℕ → ℕ) (best : ℕ × ℕ × ℕ),
      J2P blo bhi (u + 1) newj → GoodBest alo ahi blo bhi best →
      J2P blo bhi (u + 1) (smInner j2len i blo bhi js newj best).1 ∧
        GoodBest alo ahi blo bhi (smInner j2len i blo bhi js newj best).2 := by
  intro js
  induction js with
  | nil => intro newj best hn hb; exact ⟨hn, hb⟩
  | cons j js ih =>
    intro newj best hn hb
    by_cases h1 : j < blo
    · simpa [smInner, h1] using ih newj best hn hb
    · by_cases h2 : bhi ≤ j
      · simpa [smInner, h1, h2] using ⟨hn, hb⟩
      · have hk1 : (if j = 0 then 0 else j2len (j - 1)) + 1 ≤ u + 1 := by
          split
          · omega
          · have := (hj (j - 1)).1; omega
        have hk2 : blo + ((if j = 0 then 0 else j2len (j - 1)) + 1) ≤ j + 1 := by
          split
          · omega
          · rcases Nat.eq_zero_or_pos (j2len (j - 1)) with h0 | h0
            · omega
            · have := (hj (j - 1)).2 (by omega)
              omega
        simp only [smInner, if_neg h1, if_neg h2]
        apply ih
        · intro j'
          by_cases hjj : j' = j
          · subst hjj
            refine ⟨by simpa using hk1, fun _ => ⟨by omega, by omega, by simpa using hk2⟩⟩
          · simpa [hjj] using hn j'
        · set k := (if j = 0 then 0 else j2len (j - 1)) + 1 with hkdef
          by_cases hbs : best.2.2 < k
          · simp only [if_pos hbs]
            unfold GoodBest
            simp only [Prod.fst, Prod.snd]
            refine ⟨by omega, by omega, by omega, fun _ => ⟨by omega, by omega⟩⟩
          · simpa [hbs] using hb

theorem smOuter_inv {a b : List Char} {alo ahi blo bhi : ℕ} :
    ∀ (cnt i u : ℕ) (st : (ℕ → ℕ) × (ℕ × ℕ × ℕ)),
      alo + u = i → i + cnt ≤ ahi →
      J2P blo bhi u st.1 → GoodBest alo ahi blo bhi st.2 →
      GoodBest alo ahi blo bhi
        (smOuter a b blo bhi (List.range' i cnt) st).2 := by
  intro cnt
  induction cnt with
  | zero => intro i u st _ _ _ hb; simpa [smOuter] using hb
  | succ cnt ih =>
    intro i u st hiu hcnt hj hb
    rw [List.range'_succ]
    simp only [smOuter]
    exact ih (i + 1) (u + 1)
      (smInner st.1 i blo bhi (b2j b (a.getD i ' ')) (fun _ => 0) st.2)
      (by omega) (by omega)
      ((smInner_inv hj (by omega) (by omega) _ _ _
        (fun j => ⟨by omega, fun h => absurd rfl h⟩) hb).1)
      ((smInner_inv hj (by omega) (by omega) _ _ _
        (fun j => ⟨by omega, fun h => absurd rfl h⟩) hb).2)

theorem extendLow_good {a b : List Char} {alo ahi blo bhi : ℕ} :
    ∀ (fuel : ℕ) (st : ℕ × ℕ × ℕ), GoodBest alo ahi blo bhi st →
      GoodBest alo ahi blo bhi (extendLow fuel a b alo blo st) := by
  intro fuel
  induction fuel with
  | zero => intro st h; simpa [extendLow] using h
  | succ fuel ih =>
    rintro ⟨bi, bj, bs⟩ h
    rw [GoodBest_mk] at h
    obtain ⟨h1, h2, h3, h4⟩ := h
    simp only [extendLow]
    split
    · next hc =>
      apply ih
      rw [GoodBest_mk]
      refine ⟨by omega, by omega, by omega, fun _ => ?_⟩
      rcases Nat.eq_zero_or_pos bs with h0 | h0
      · obtain ⟨e1, e2⟩ := h3 h0
        omega
      · have := h4 (by omega)
        omega
    · exact GoodBest_mk.mpr ⟨h1, h2, h3, h4⟩

theorem extendHigh_good {a b : List Char} {alo ahi blo bhi : ℕ} :
    ∀ (fuel : ℕ) (st : ℕ × ℕ × ℕ), GoodBest alo ahi blo bhi st →
      GoodBest alo ahi blo bhi (extendHigh fuel a b ahi bhi st) := by
  intro fuel
  induction fuel with
  | zero => intro st h; simpa [extendHigh] using h
  | succ fuel ih =>
    rintro ⟨bi, bj, bs⟩ h
    rw [GoodBest_mk] at h
    obtain ⟨h1, h2, h3, h4⟩ := h
    simp only [extendHigh]
    split
    · next hc =>
      apply ih
      rw [GoodBest_mk]
      exact ⟨h1, h2, by omega, fun _ => by omega⟩
    · exact GoodBest_mk.mpr ⟨h1, h2, h3, h4⟩

theorem flm_good (a b : List Char) (alo ahi blo bhi : ℕ) :
    GoodBest alo ahi blo bhi (find_longest_match a b alo ahi blo bhi) := by
  unfold find_longest_match
  apply extendHigh_good
  apply extendLow_good
  by_cases h : alo ≤ ahi
  · exact smOuter_inv (ahi - alo) alo 0 _ (by omega) (by omega)
      (fun j => ⟨le_rfl, fun hne => absurd rfl hne⟩)
      ⟨le_rfl, le_rfl, fun _ => ⟨rfl, rfl⟩, fun hne => absurd rfl hne⟩
  · have : ahi - alo = 0 := by omega
    rw [this]
    simpa [smOuter] using
      ⟨le_rfl, le_rfl, fun _ => ⟨rfl, rfl⟩, fun hne => absurd rfl hne⟩

theorem mtFuel_le (a b : List Char) :
    ∀ (fuel alo ahi blo bhi : ℕ),
      mtFuel a b fuel alo ahi blo bhi ≤ min (ahi - alo) (bhi - blo) := by
  intro fuel
  induction fuel with
  | zero => intro alo ahi blo bhi; simp [mtFuel]
  | succ fuel ih =>
    intro alo ahi blo bhi
    simp only [mtFuel]
    split
    · omega
    · next hk =>
      obtain ⟨g1, g2, _, g4⟩ := flm_good a b alo ahi blo bhi
      set m := find_longest_match a b alo ahi blo bhi
      obtain ⟨m1, m2⟩ := g4 hk
      have hL : (if alo < m.1 ∧ blo < m.2.1 then
          mtFuel a b fuel alo m.1 blo m.2.1 else 0) ≤
          min (m.1 - alo) (m.2.1 - blo) := by
        split
        · exact ih alo m.1 blo m.2.1
        · omega
      have hR : (if m.1 + m.2.2 < ahi ∧ m.2.1 + m.2.2 < bhi then
          mtFuel a b fuel (m.1 + m.2.2) ahi (m.2.1 + m.2.2) bhi else 0) ≤
          min (ahi - (m.1 + m.2.2)) (bhi - (m.2.1 + m.2.2)) := by
        split
        · exact ih (m.1 + m.2.2) ahi (m.2.1 + m.2.2) bhi
        · omega
      omega

theorem matchingTotal_le (a b : List Char) :
    matchingTotal a b ≤ min a.length b.length := by
  have := mtFuel_le a b (a.length + b.length) 0 a.length 0 b.length
  simpa [matchingTotal] using this

theorem seqRatio_nonneg (a b : List Char) : 0 ≤ seqRatio a b := by
  unfold seqRatio
  split
  · norm_num
  · next h =>
    apply div_nonneg
    · positivity
    · positivity

theorem seqRatio_le_one (a b : List Char) : seqRatio a b ≤ 1 := by
  unfold seqRatio
  split
  · norm_num
  · next h =>
    have hM := matchingTotal_le a b
    have hpos : (0 : ℚ) < (a.length : ℚ) + (b.length : ℚ) := by
      have : 0 < a.length + b.length := Nat.pos_of_ne_zero h
      exact_mod_cast this
    rw [div_le_one hpos]
    have : 2 * matchingTotal a b ≤ a.length + b.length := by omega
    exact_mod_cast this

/-! ## Bounds for the Levenshtein similarity -/

theorem levFuel_le : ∀ (fuel : ℕ) (xs ys : List Char),
    levFuel fuel xs ys ≤ max xs.length ys.length := by
  intro fuel
  induction fuel with
  | zero =>
    intro xs ys
    cases xs with
    | nil => simp [levFuel]
    | cons x xs =>
      cases ys with
      | nil => simp [levFuel]
      | cons y ys => simp [levFuel]
  | succ fuel ih =>
    intro xs ys
    cases xs with
    | nil => simp [levFuel]
    | cons x xs =>
      cases ys with
      | nil => simp [levFuel]
      | cons y ys =>
        have h1 := ih xs ys
        simp only [levFuel, List.length_cons]
        have : (if x = y then 0 else 1) + levFuel fuel xs ys ≤
            max xs.length ys.length + 1 := by split <;> omega
        omega

theorem levFuel_self : ∀ (fuel : ℕ) (xs : List Char), xs.length ≤ fuel →
    levFuel fuel xs xs = 0 := by
  intro fuel
  induction fuel with
  | zero =>
    intro xs h
    have : xs = [] := List.length_eq_zero.mp (by omega)
    simp [this, levFuel]
  | succ fuel ih =>
    intro xs h
    cases xs with
    | nil => simp [levFuel]
    | cons x xs =>
      have hx : xs.length ≤ fuel := by simp at h; omega
      have h0 := ih xs hx
      simp [levFuel, h0]

theorem levDistance_le (xs ys : List Char) :
    levDistance xs ys ≤ max xs.length ys.length :=
  levFuel_le _ xs ys

theorem levDistance_self (xs : List Char) : levDistance xs xs = 0 :=
  levFuel_self _ xs (by omega)

/-! ## Bounds for the greedy word similarity -/

theorem cwsScan_ok {w1 : List Char} {used : List ℕ} {len2 : ℕ} :
    ∀ (l : List (ℕ × List Char)) (best : Option ℕ × ℚ),
      (∀ p ∈ l, p.1 < len2) → ScanOk len2 used best →
      ScanOk len2 used (cwsScan w1 used l best) := by
  intro l
  induction l with
  | nil => intro best _ hb; simpa [cwsScan] using hb
  | cons p rest ih =>
    rintro best hl hb
    obtain ⟨i, w2⟩ := p
    by_cases hiu : i ∈ used
    · simp only [cwsScan, if_pos hiu]
      exact ih _ (fun q hq => hl q (List.mem_cons_of_mem _ hq)) hb
    · simp only [cwsScan, if_neg hiu]
      apply ih _ (fun q hq => hl q (List.mem_cons_of_mem _ hq))
      split
      · next hcond =>
        refine ⟨le_trans hb.1 (le_of_lt hcond.1), seqRatio_le_one _ _, ?_⟩
        intro i' hi'
        obtain rfl : i = i' := by simpa using hi'
        exact ⟨hiu, hl (i, w2) (List.mem_cons_self _ _)⟩
      · exact hb

/-- Every index of `List.enum` is below the list's length. -/
theorem enum_fst_lt {α : Type} (l : List α) :
    ∀ p ∈ l.enum, p.1 < l.length := by
  intro p hp
  have := List.fst_lt_add_of_mem_enumFrom (by simpa [List.enum] using hp)
  simpa using this

theorem cwsFold_bounds {words2 : List (List Char)} :
    ∀ (ws : List (List Char)) (used : List ℕ) (msum : ℚ),
      used.Nodup → (∀ i ∈ used, i < words2.length) →
      msum ≤ (cwsFold words2 ws used msum).1 ∧
      (cwsFold words2 ws used msum).1 + (used.length : ℚ) ≤
        msum + (words2.length : ℚ) := by
  intro ws
  induction ws with
  | nil =>
    intro used msum hnd hmem
    have hsub : used.toFinset ⊆ Finset.range words2.length := by
      intro x hx
      simp only [List.mem_toFinset] at hx
      exact Finset.mem_range.mpr (hmem x hx)
    have hlen : used.length ≤ words2.length := by
      have h2 := Finset.card_le_card hsub
      rwa [List.toFinset_card_of_nodup hnd, Finset.card_range] at h2
    constructor
    · simp [cwsFold]
    · simp only [cwsFold]
      have : (used.length : ℚ) ≤ (words2.length : ℚ) := by exact_mod_cast hlen
      linarith
  | cons w1 rest ih =>
    intro used msum hnd hmem
    simp only [cwsFold]
    have hscan := @cwsScan_ok w1 used words2.length
      words2.enum (none, 0) (enum_fst_lt words2)
      ⟨le_rfl, by norm_num, by simp⟩
    rcases hsc : cwsScan w1 used words2.enum (none, 0) with ⟨oi, s⟩
    rw [hsc] at hscan
    obtain ⟨hs0, hs1, hidx⟩ := hscan
    cases oi with
    | none =>
      simpa using ih used msum hnd hmem
    | some i =>
      obtain ⟨hnotin, hlt⟩ := hidx i rfl
      have h := ih (i :: used) (msum + s) (by simp [hnd, hnotin])
        (by intro j hj; rcases List.mem_cons.mp hj with h | h
            · subst h; exact hlt
            · exact hmem j h)
      refine ⟨by nlinarith [h.1], ?_⟩
      have h2 := h.2
      simp only [List.length_cons] at h2
      push_cast at h2 ⊢
      linarith

theorem calculate_word_similarity_nonneg (w1 w2 : List (List Char)) :
    0 ≤ calculate_word_similarity w1 w2 := by
  unfold calculate_word_similarity
  dsimp only
  split_ifs with h1 h2 h3
  · norm_num
  · norm_num
  · apply div_nonneg
    · simpa using (@cwsFold_bounds w2 w1 [] 0 (by simp) (by simp)).1
    · exact_mod_cast Nat.le_of_lt h3
  · norm_num

theorem calculate_word_similarity_le_one (w1 w2 : List (List Char)) :
    calculate_word_similarity w1 w2 ≤ 1 := by
  unfold calculate_word_similarity
  dsimp only
  split_ifs with h1 h2 h3
  · norm_num
  · norm_num
  · rw [div_le_one (by exact_mod_cast h3)]
    have hb := (@cwsFold_bounds w2 w1 [] 0 (by simp) (by simp)).2
    simp only [List.length_nil, Nat.cast_zero, add_zero, zero_add] at hb
    have : (w2.length : ℚ) ≤ ((max w1.length w2.length : ℕ) : ℚ) := by
      exact_mod_cast le_max_right _ _
    linarith
  · norm_num

/-! ## The similarity contract (C4) -/

theorem calculate_similarity_nonneg (a b : List Char) :
    0 ≤ calculate_similarity a b := by
  have hs0 := seqRatio_nonneg (pairNormalize a b).1 (pairNormalize a b).2
  have hw0 := calculate_word_similarity_nonneg
    (splitWs (pairNormalize a b).1) (splitWs (pairNormalize a b).2)
  unfold calculate_similarity
  dsimp only
  split_ifs with h1 h2 h3
  · norm_num
  · linarith
  · have hm : (0 : ℚ) <
        ((max (pairNormalize a b).1.length (pairNormalize a b).2.length : ℕ) : ℚ) := by
      exact_mod_cast Nat.pos_of_ne_zero h3
    have hd : (levDistance (pairNormalize a b).1 (pairNormalize a b).2 : ℚ) ≤
        ((max (pairNormalize a b).1.length (pairNormalize a b).2.length : ℕ) : ℚ) := by
      exact_mod_cast levDistance_le (pairNormalize a b).1 (pairNormalize a b).2
    have hdiv := (div_le_one hm).mpr hd
    linarith
  · linarith
  · have hm : (0 : ℚ) <
        ((max (pairNormalize a b).1.length (pairNormalize a b).2.length : ℕ) : ℚ) := by
      exact_mod_cast Nat.pos_of_ne_zero ‹_›
    have hd : (levDistance (pairNormalize a b).1 (pairNormalize a b).2 : ℚ) ≤
        ((max (pairNormalize a b).1.length (pairNormalize a b).2.length : ℕ) : ℚ) := by
      exact_mod_cast levDistance_le (pairNormalize a b).1 (pairNormalize a b).2
    have hdiv := (div_le_one hm).mpr hd
    linarith

theorem calculate_similarity_le_one (a b : List Char) :
    calculate_similarity a b ≤ 1 := by
  have hs1 := seqRatio_le_one (pairNormalize a b).1 (pairNormalize a b).2
  have hw1 := calculate_word_similarity_le_one
    (splitWs (pairNormalize a b).1) (splitWs (pairNormalize a b).2)
  unfold calculate_similarity
  dsimp only
  split_ifs with h1 h2 h3
  · norm_num
  · linarith
  · have hm : (0 : ℚ) <
        ((max (pairNormalize a b).1.length (pairNormalize a b).2.length : ℕ) : ℚ) := by
      exact_mod_cast Nat.pos_of_ne_zero h3
    have hdiv : 0 ≤ (levDistance (pairNormalize a b).1 (pairNormalize a b).2 : ℚ) /
        ((max (pairNormalize a b).1.length (pairNormalize a b).2.length : ℕ) : ℚ) :=
      div_nonneg (by positivity) hm.le
    linarith
  · linarith
  · have hm : (0 : ℚ) <
        ((max (pairNormalize a b).1.length (pairNormalize a b).2.length : ℕ) : ℚ) := by
      exact_mod_cast Nat.pos_of_ne_zero ‹_›
    have hdiv : 0 ≤ (levDistance (pairNormalize a b).1 (pairNormalize a b).2 : ℚ) /
        ((max (pairNormalize a b).1.length (pairNormalize a b).2.length : ℕ) : ℚ) :=
      div_nonneg (by positivity) hm.le
    linarith

/-- **C4.** For all strings `a` and `b`, `calculate_similarity(a, b)`
returns a value in `[0, 1]`, and returns exactly `0.0` whenever either
input is the empty string; in particular both weighted blends
(`0.4·seq + 0.4·lev + 0.2·word_sim` and `0.6·seq + 0.4·lev`, which are the
values returned in the two branches) never fall below 0 or exceed 1. -/
theorem c4_similarity_in_unit_interval (a b : List Char) :
    0 ≤ calculate_similarity a b ∧ calculate_similarity a b ≤ 1 ∧
      calculate_similarity [] b = 0 ∧ calculate_similarity a [] = 0 :=
  ⟨calculate_similarity_nonneg a b, calculate_similarity_le_one a b,
    by simp [calculate_similarity], by simp [calculate_similarity]⟩

/-! ## Position-index round trip (C8) -/

theorem digitChar_spec {d : ℕ} (hd : d < 10) :
    isDigitCh (digitChar d) = true ∧ digitVal (digitChar d) = d ∧
      digitChar d ≠ '.' := by
  interval_cases d <;> exact ⟨by decide, by decide, by decide⟩

theorem isDigitCh_not_special {c : Char} (h : isDigitCh c = true) :
    isWs c = false ∧ c ≠ '-' ∧ c ≠ '+' := by
  have hv : 48 ≤ c.toNat ∧ c.toNat ≤ 57 := by simpa [isDigitCh] using h
  refine ⟨?_, ?_, ?_⟩
  · by_contra hw
    simp only [Bool.not_eq_false] at hw
    have hw' : c = ' ' ∨ c = '\t' ∨ c = '\n' ∨ c = '\r' ∨
        c.val = 11 ∨ c.val = 12 := by simpa [isWs] using hw
    rcases hw' with h1 | h1 | h1 | h1 | h1 | h1
    · subst h1; exact absurd hv (by decide)
    · subst h1; exact absurd hv (by decide)
    · subst h1; exact absurd hv (by decide)
    · subst h1; exact absurd hv (by decide)
    · have : c.toNat = 11 := by simp [Char.toNat, h1]
      omega
    · have : c.toNat = 12 := by simp [Char.toNat, h1]
      omega
  · intro h1; subst h1; exact absurd hv (by decide)
  · intro h1; subst h1; exact absurd hv (by decide)

theorem trimWs_eq_self {l : List Char} (h : ∀ c ∈ l, isWs c = false) :
    trimWs l = l := by
  unfold trimWs
  have h1 : l.dropWhile isWs = l := by
    cases l with
    | nil => rfl
    | cons c rest =>
      simp [List.dropWhile_cons, h c (List.mem_cons_self _ _)]
  rw [h1]
  have h2 : l.reverse.dropWhile isWs = l.reverse := by
    cases hr : l.reverse with
    | nil => rfl
    | cons c rest =>
      have : c ∈ l := by
        rw [← List.mem_reverse, hr]; exact List.mem_cons_self _ _
      simp [List.dropWhile_cons, h c this]
  rw [h2, List.reverse_reverse]

theorem parseDigits_append (xs ys : List Char) (v : ℕ) :
    parseDigits (xs ++ ys) v =
      match parseDigits xs v with
      | some v' => parseDigits ys v'
      | none => none := by
  induction xs generalizing v with
  | nil => simp [parseDigits]
  | cons c xs ih =>
    simp only [List.cons_append, parseDigits]
    split
    · exact ih _
    · rfl

theorem parseDigits_digits (ds : List ℕ) (hds : ∀ d ∈ ds, d < 10) :
    ∀ v : ℕ, parseDigits ((ds.map digitChar).reverse) v =
      some (v * 10 ^ ds.length + Nat.ofDigits 10 ds) := by
  induction ds with
  | nil => intro v; simp [parseDigits, Nat.ofDigits]
  | cons d ds ih =>
    intro v
    have hd := hds d (by simp)
    have hrest : ∀ x ∈ ds, x < 10 := fun x hx => hds x (by simp [hx])
    simp only [List.map_cons, List.reverse_cons]
    rw [parseDigits_append, ih hrest v]
    simp only [parseDigits, (digitChar_spec hd).1, if_true, (digitChar_spec hd).2.1]
    rw [Nat.ofDigits_cons]
    congr 1
    simp only [List.length_cons, pow_succ]
    ring

theorem natToDec_digits (n : ℕ) : ∀ c ∈ natToDec n, isDigitCh c = true := by
  intro c hc
  unfold natToDec at hc
  split at hc
  · have : c = '0' := by simpa using hc
    subst this; decide
  · simp only [List.mem_reverse, List.mem_map] at hc
    obtain ⟨d, hd, rfl⟩ := hc
    exact (digitChar_spec (Nat.digits_lt_base (by norm_num) hd)).1

theorem natToDec_ne_nil (n : ℕ) : natToDec n ≠ [] := by
  unfold natToDec
  split
  · simp
  · next h =>
    simp [Nat.digits_ne_nil_iff_ne_zero.mpr h]

theorem natToDec_no_dot (n : ℕ) : '.' ∉ natToDec n := by
  intro hmem
  have := natToDec_digits n '.' hmem
  exact absurd this (by decide)

theorem parseDigits_natToDec (n : ℕ) : parseDigits (natToDec n) 0 = some n := by
  unfold natToDec
  split
  · next h => subst h; decide
  · next h =>
    rw [parseDigits_digits _ (fun d hd => Nat.digits_lt_base (by norm_num) hd) 0]
    simp [Nat.ofDigits_digits]

theorem pyInt_natToDec (n : ℕ) : pyInt (natToDec n) = some (n : ℤ) := by
  have hdig := natToDec_digits n
  have htrim : trimWs (natToDec n) = natToDec n :=
    trimWs_eq_self fun c hc => (isDigitCh_not_special (hdig c hc)).1
  unfold pyInt
  rw [htrim]
  rcases hl : natToDec n with _ | ⟨c, rest⟩
  · exact absurd hl (natToDec_ne_nil n)
  · have hc : isDigitCh c = true := hdig c (by rw [hl]; exact List.mem_cons_self _ _)
    have hspec := isDigitCh_not_special hc
    simp only [if_neg hspec.2.1, if_neg hspec.2.2, hc, if_true]
    have := parseDigits_natToDec n
    rw [hl] at this
    rw [this]
    rfl

theorem splitDots_no_dot {l : List Char} (h : '.' ∉ l) : splitDots l = [l] := by
  induction l with
  | nil => rfl
  | cons c rest ih =>
    have hc : ¬ c = '.' := fun e => h (by simp [e])
    have hr : '.' ∉ rest := fun hm => h (List.mem_cons_of_mem _ hm)
    simp only [splitDots, if_neg hc, ih hr]

theorem splitDots_append {x : List Char} (hx : '.' ∉ x) (rest : List Char) :
    splitDots (x ++ '.' :: rest) = x :: splitDots rest := by
  induction x with
  | nil => simp [splitDots]
  | cons c xs ih =>
    have hc : ¬ c = '.' := fun e => hx (by simp [e])
    have hxs : '.' ∉ xs := fun hm => hx (List.mem_cons_of_mem _ hm)
    simp only [List.cons_append, splitDots, if_neg hc, List.append_eq, ih hxs]

/-- **C8.** For all non-negative integers `s`, `a`, `w`, parsing the
generated position index round-trips:
`parse_position_index(generate_position_index(s, a, w)) == (s, a, w)`;
`parse_position_index("bad.format")` fails with the format error; and in
general every string that does not split into exactly three
integer-parseable dot-separated parts makes `parse_position_index` fail
rather than return a value. -/
theorem c8_position_index_round_trip :
    (∀ s a w : ℕ, parse_position_index (generate_position_index s a w) =
        .ok ((s : ℤ), (a : ℤ), (w : ℤ))) ∧
    parse_position_index "bad.format".data = .error () ∧
    (∀ idx, parse_position_index idx = .error () ∨
      ∃ p0 p1 p2 v0 v1 v2, splitDots idx = [p0, p1, p2] ∧
        pyInt p0 = some v0 ∧ pyInt p1 = some v1 ∧ pyInt p2 = some v2 ∧
        parse_position_index idx = .ok (v0, v1, v2)) := by
  refine ⟨?_, by rfl, ?_⟩
  · intro s a w
    unfold parse_position_index generate_position_index
    rw [List.append_assoc, List.cons_append, splitDots_append (natToDec_no_dot s),
      splitDots_append (natToDec_no_dot a), splitDots_no_dot (natToDec_no_dot w)]
    simp [pyInt_natToDec]
  · intro idx
    unfold parse_position_index
    rcases hs : splitDots idx with _ | ⟨p0, _ | ⟨p1, _ | ⟨p2, _ | ⟨p3, t⟩⟩⟩⟩
    · exact Or.inl rfl
    · exact Or.inl rfl
    · exact Or.inl rfl
    · rcases h0 : pyInt p0 with _ | v0
      · simp [h0]
      · rcases h1 : pyInt p1 with _ | v1
        · simp [h0, h1]
        · rcases h2 : pyInt p2 with _ | v2
          · simp [h0, h1, h2]
          · exact Or.inr ⟨p0, p1, p2, v0, v1, v2, rfl, h0, h1, h2, by
              simp [h0, h1, h2]⟩
    · exact Or.inl rfl

/-! ## Alignment loop structure (C5, C6) -/

theorem compareLoop_length (spoken : List (List Char)) (is_final : Bool) :
    ∀ (ws : List (List Char)) (p : ℕ) (used : List ℕ),
      (compareLoop spoken is_final ws p used).1.length = ws.length := by
  intro ws
  induction ws with
  | nil => intro p used; rfl
  | cons w ws ih => intro p used; simp [compareLoop, ih]

theorem compareStep_empty (is_final : Bool) (p : ℕ) (w : List Char)
    (used : List ℕ) :
    compareStep [] is_final p w used =
      (⟨p, w, none, .skipped, none⟩, used, ⟨0, 0, if is_final then 1 else 0⟩) := by
  simp [compareStep]

theorem compareLoop_empty (is_final : Bool) :
    ∀ (ws : List (List Char)) (p : ℕ) (used : List ℕ),
      (∀ r ∈ (compareLoop [] is_final ws p used).1,
        r.status = TranscriptStatus.skipped ∧ r.spoken = none ∧
          r.similarity_score = none) ∧
      (compareLoop [] is_final ws p used).2 =
        ⟨0, 0, if is_final then ws.length else 0⟩ := by
  intro ws
  induction ws with
  | nil =>
    intro p used
    exact ⟨by simp [compareLoop], by simp [compareLoop]⟩
  | cons w ws ih =>
    intro p used
    simp only [compareLoop, compareStep_empty]
    constructor
    · intro r hr
      rcases List.mem_cons.mp hr with h | h
      · subst h; exact ⟨rfl, rfl, rfl⟩
      · exact (ih (p + 1) used).1 r h
    · rw [(ih (p + 1) used).2]
      cases is_final <;> simp [Counts.add, Nat.add_comm]

/-- **C5.** For every expected-word list, when the normalized spoken
transcript yields no tokens (e.g. the empty string), `compare_transcript`
marks every expected word `Skipped` with `spoken` and `similarity` absent
— for both final and provisional calls — and the summary's skipped count
equals `len(expected)` exactly when the call is final. -/
theorem c5_no_tokens_all_skipped (expected : List (List Char))
    (spoken : List Char) (is_final : Bool)
    (h : splitWs (normalizeSpoken spoken) = []) :
    (∀ r ∈ (compare_transcript expected spoken is_final).1,
        r.status = TranscriptStatus.skipped ∧ r.spoken = none ∧
          r.similarity_score = none) ∧
    (compare_transcript expected spoken is_final).1.length = expected.length ∧
    (compare_transcript expected spoken is_final).2.skipped =
      (if is_final then expected.length else 0) := by
  unfold compare_transcript
  split
  · next he => subst he; simp
  · dsimp only
    rw [h]
    refine ⟨(compareLoop_empty is_final expected 0 []).1,
      compareLoop_length _ _ _ _ _, ?_⟩
    rw [(compareLoop_empty is_final expected 0 []).2]

theorem c5_no_tokens_all_skipped_witness :
    splitWs (normalizeSpoken []) = [] ∧
    ((∀ r ∈ (compare_transcript [['a']] [] true).1,
        r.status = TranscriptStatus.skipped ∧ r.spoken = none ∧
          r.similarity_score = none) ∧
      (compare_transcript [['a']] [] true).1.length = [['a']].length ∧
      (compare_transcript [['a']] [] true).2.skipped =
        (if true then [['a']].length else 0)) :=
  ⟨by decide, c5_no_tokens_all_skipped [['a']] [] true (by decide)⟩

/-- **C6.** `compare_transcript(["a","b"], "a b", true)` with identical
expected and spoken tokens yields `summary.matched == 2`, both results
`Matched`, and similarity score exactly `1.0` for each. -/
theorem c6_identical_tokens_fully_matched :
    (compare_transcript [['a'], ['b']] "a b".data true).2.matched = 2 ∧
    (compare_transcript [['a'], ['b']] "a b".data true).1.map
        TranscriptResult.status =
      [TranscriptStatus.matched, TranscriptStatus.matched] ∧
    (compare_transcript [['a'], ['b']] "a b".data true).1.map
        TranscriptResult.similarity_score = [some 1, some 1] := by
  with_unfolding_all decide

/-! ## Position monotonicity and bound (C2) -/

theorem compare_results_length (e : List (List Char)) (sp : List Char)
    (f : Bool) : (compare_transcript e sp f).1.length = e.length := by
  unfold compare_transcript
  split
  · next h => subst h; rfl
  · dsimp only
    exact compareLoop_length _ _ _ _ _

theorem matchedCount_le (rs : List TranscriptResult) :
    matchedCount rs ≤ rs.length :=
  List.length_filter_le _ _

theorem update_position_bounds (words : List (List Char)) (pos : ℕ)
    (t : List Char) (h : pos ≤ words.length) :
    pos ≤ update_position words pos t ∧
      update_position words pos t ≤ words.length := by
  refine ⟨Nat.le_add_right _ _, ?_⟩
  unfold update_position
  have h1 := matchedCount_le (compare_transcript ((words.drop pos).take 10) t true).1
  rw [compare_results_length] at h1
  have h2 : ((words.drop pos).take 10).length ≤ words.length - pos := by
    simp only [List.length_take, List.length_drop]
    omega
  omega

/-- **C2.** After any sequence of final transcript updates against a fixed
word array, the position is non-decreasing across the sequence and never
exceeds the length of the word array: the invariant
`0 ≤ position ≤ len(words)` is preserved by every final update, which adds
the count of `Matched` results of the comparison over the 10-word
lookahead window starting at the current position. -/
theorem c2_position_monotone_and_bounded (words : List (List Char))
    (pos : ℕ) (ts : List (List Char)) (h : pos ≤ words.length) :
    pos ≤ updateRun words pos ts ∧ updateRun words pos ts ≤ words.length ∧
      ∀ ts', updateRun words pos ts ≤ updateRun words pos (ts ++ ts') := by
  have main : ∀ (l : List (List Char)) (q : ℕ), q ≤ words.length →
      q ≤ updateRun words q l ∧ updateRun words q l ≤ words.length := by
    intro l
    induction l with
    | nil => intro q hq; exact ⟨le_rfl, hq⟩
    | cons t l ih =>
      intro q hq
      have hb := update_position_bounds words q t hq
      have hrec := ih (update_position words q t) hb.2
      have he : updateRun words q (t :: l) =
          updateRun words (update_position words q t) l := rfl
      rw [he]
      exact ⟨le_trans hb.1 hrec.1, hrec.2⟩
  refine ⟨(main ts pos h).1, (main ts pos h).2, ?_⟩
  intro ts'
  have he : updateRun words pos (ts ++ ts') =
      updateRun words (updateRun words pos ts) ts' := by
    unfold updateRun
    rw [List.foldl_append]
  rw [he]
  exact (main ts' (updateRun words pos ts) (main ts pos h).2).1

theorem c2_position_monotone_and_bounded_witness :
    (0 ≤ [['a']].length) ∧
    (0 ≤ updateRun [['a']] 0 [['a']] ∧
      updateRun [['a']] 0 [['a']] ≤ [['a']].length ∧
      ∀ ts', updateRun [['a']] 0 [['a']] ≤ updateRun [['a']] 0 ([['a']] ++ ts')) :=
  ⟨Nat.zero_le _, c2_position_monotone_and_bounded [['a']] 0 [['a']] (by decide)⟩

/-! ## Unit-advance boundary (C3) -/

/-- **C3.** When a final transcript update makes the position reach the
end of the current unit's word array, the session moves to the successor
unit at position 0 under `SURAH` (unit-sequential) traversal — the
successor being `ayah + 1` in the same corpus — or is `Ended` when the
successor index exceeds the corpus's unit count (`jumlahayat`); a failed
fetch of an existing successor leaves the session unchanged apart from
the committed position. -/
theorem c3_unit_advance_boundary (c : Corpus) (s : SessState) (t : List Char)
    (h : s.words.length ≤ update_position s.words s.position t) :
    update_session_final c s t =
      (if s.ayah + 1 ≤ c.jumlahayat s.surah_id then
        match c.get_ayat s.surah_id (s.ayah + 1) with
        | some ws => { s with ayah := s.ayah + 1, position := 0, words := ws }
        | none => { s with position := update_position s.words s.position t }
      else { s with position := update_position s.words s.position t,
                    status := SessionStatus.ended }) := by
  unfold update_session_final advance_to_next_ayah
  dsimp only
  rw [if_pos h]

theorem c3_unit_advance_boundary_witness :
    ([['a']] : List (List Char)).length ≤ update_position [['a']] 0 ['a'] ∧
    update_session_final
        ⟨fun s' a' => if s' = 1 ∧ a' = 1 then some [['a']] else none, fun _ => 1⟩
        ⟨1, 1, 0, [['a']], SessionStatus.active⟩ ['a'] =
      ⟨1, 1, 1, [['a']], SessionStatus.ended⟩ := by
  refine ⟨by with_unfolding_all decide, ?_⟩
  rw [c3_unit_advance_boundary _ _ _ (by with_unfolding_all decide)]
  with_unfolding_all decide

/-! ## Broadcast hub (C9) and manual unit moves (C7) -/

theorem broadcastRemoveLoop_delivered (fails : ℕ → Bool) :
    ∀ (ws reg : List ℕ), (broadcastRemoveLoop fails ws reg).1 =
      ws.filter fun w => !fails w := by
  intro ws
  induction ws with
  | nil => intro reg; rfl
  | cons w ws ih =>
    intro reg
    by_cases h : fails w <;> simp [broadcastRemoveLoop, h, ih]

theorem broadcastRemoveLoop_registry (fails : ℕ → Bool) :
    ∀ (ws reg : List ℕ), reg.Nodup →
      (broadcastRemoveLoop fails ws reg).2 =
        reg.filter fun x => !(fails x && decide (x ∈ ws)) := by
  intro ws
  induction ws with
  | nil => intro reg _; simp [broadcastRemoveLoop]
  | cons w ws ih =>
    intro reg hnd
    cases h : fails w with
    | true =>
      simp only [broadcastRemoveLoop, h, if_true]
      rw [ih _ (hnd.erase _), List.Nodup.erase_eq_filter hnd w,
        List.filter_filter]
      apply List.filter_congr
      intro x _
      by_cases hxw : x = w
      · subst hxw; simp [h]
      · simp [hxw]
    | false =>
      simp only [broadcastRemoveLoop, h, Bool.false_eq_true, if_false]
      rw [ih _ hnd]
      apply List.filter_congr
      intro x _
      by_cases hxw : x = w
      · subst hxw; simp [h]
      · simp [hxw]

theorem broadcastKeepLoop_eq (fails : ℕ → Bool) :
    ∀ l : List ℕ, broadcastKeepLoop fails l = l.filter fun o => !fails o := by
  intro l
  induction l with
  | nil => rfl
  | cons w ws ih => by_cases h : fails w <;> simp [broadcastKeepLoop, h, ih]

/-- **C9 (amended).** In every broadcast, a delivery failure to one
observer never blocks delivery to the remaining observers (exactly the
non-failing observers are delivered to, in both broadcasts); but only the
unit-move broadcast deregisters the failing observers — the session-ended
broadcast leaves the registry unchanged, failing observers included. -/
theorem c9_broadcast_amended (fails : ℕ → Bool) (registry : List ℕ)
    (h : registry.Nodup) :
    broadcast_ayah_move fails registry =
      (registry.filter fun o => !fails o, registry.filter fun o => !fails o) ∧
    broadcast_session_ended fails registry =
      (registry.filter fun o => !fails o, registry) := by
  constructor
  · unfold broadcast_ayah_move
    rw [Prod.ext_iff]
    refine ⟨broadcastRemoveLoop_delivered fails registry registry, ?_⟩
    rw [broadcastRemoveLoop_registry fails registry registry h]
    apply List.filter_congr
    intro x hx
    simp [hx]
  · unfold broadcast_session_ended
    rw [broadcastKeepLoop_eq]

theorem c9_broadcast_amended_witness :
    ([1, 2] : List ℕ).Nodup ∧
    (broadcast_ayah_move (fun o => o == 1) [1, 2] =
        ([1, 2].filter fun o => !(o == 1), [1, 2].filter fun o => !(o == 1)) ∧
      broadcast_session_ended (fun o => o == 1) [1, 2] =
        ([1, 2].filter fun o => !(o == 1), [1, 2])) :=
  ⟨by decide, c9_broadcast_amended (fun o => o == 1) [1, 2] (by decide)⟩

/-- **C9 (counterexample to the claim as stated).** The claim requires
every observer whose delivery fails to be deregistered for *every* event
type the hub broadcasts; but after a session-ended broadcast in which the
only observer's delivery failed (nobody was delivered to), that observer
is still registered — only the unit-move broadcast deregisters it. -/
theorem c9_ended_broadcast_keeps_failed_observer :
    (broadcast_session_ended (fun _ => true) [7]).1 = [] ∧
    (broadcast_session_ended (fun _ => true) [7]).2 = [7] ∧
    (broadcast_ayah_move (fun _ => true) [7]).2 = [] := by decide

/-- **C7 (amended).** Both manual-move operations validate that the
target unit exists before mutating anything: a failed fetch yields an
error with no position/unit change committed.  When the target exists,
`move_ayah_session` (live-session service) resets an out-of-range
requested position (`>= len(words)`) to 0 before committing, but notifies
no observers; `MemoryLiveSessionService.move_ayah` commits the requested
position unchanged — with no range check — and broadcasts the move to
exactly the observers whose delivery succeeds. -/
theorem c7_move_validates_and_clamps (c : Corpus) (s : SessState)
    (m : MemSession) (registry : List ℕ) (fails : ℕ → Bool)
    (new_ayah new_position : ℕ) :
    (match c.get_ayat s.surah_id new_ayah with
      | none => move_ayah_session c s new_ayah new_position = .error ()
      | some ws => move_ayah_session c s new_ayah new_position =
          .ok { s with
                  ayah := new_ayah
                  position := (if ws.length ≤ new_position then 0 else new_position)
                  words := ws }) ∧
    (match c.get_ayat m.surah_id new_ayah with
      | none =>
          memory_move_ayah c m registry fails new_ayah new_position = .error ()
      | some _ =>
          memory_move_ayah c m registry fails new_ayah new_position =
            .ok ({ m with ayah := new_ayah, position := new_position },
              registry.filter (fun o => !fails o),
              (broadcast_ayah_move fails registry).2)) := by
  constructor
  · rcases h : c.get_ayat s.surah_id new_ayah with _ | ws
    · simp [move_ayah_session, h]
    · simp [move_ayah_session, h]
  · rcases h : c.get_ayat m.surah_id new_ayah with _ | ws
    · simp [memory_move_ayah, h]
    · simp [memory_move_ayah, h, broadcast_ayah_move,
        broadcastRemoveLoop_delivered]

/-- **C7 (counterexample to the claim as stated).** The claim requires an
out-of-range requested position to be clamped to 0 before the session is
updated and observers are notified; but the memory-session `move_ayah` —
the variant that notifies observers — commits position 5 for a
2-word unit unchanged. -/
theorem c7_memory_move_does_not_clamp :
    memory_move_ayah
        ⟨fun s a => if s = 1 ∧ a = 2 then some [['a'], ['b']] else none,
          fun _ => 2⟩
        ⟨1, 1, 0⟩ [] (fun _ => false) 2 5 =
      .ok (⟨1, 2, 5⟩, [], []) := by rfl

/-! ## Per-word classification of `compare_transcript` (C1) -/

theorem foldrMax_spec (w : List Char) (spoken : List (List Char)) :
    ∀ l : List ℕ,
      0 ≤ l.foldr (fun j m => max (calculate_similarity w (spoken.getD j [])) m) 0 ∧
      (∀ j ∈ l, calculate_similarity w (spoken.getD j []) ≤
        l.foldr (fun j m => max (calculate_similarity w (spoken.getD j [])) m) 0) ∧
      (l.foldr (fun j m => max (calculate_similarity w (spoken.getD j [])) m) 0 = 0 ∨
        ∃ j ∈ l, calculate_similarity w (spoken.getD j []) =
          l.foldr (fun j m => max (calculate_similarity w (spoken.getD j [])) m) 0) := by
  intro l
  induction l with
  | nil => exact ⟨le_rfl, by simp, Or.inl rfl⟩
  | cons j l ih =>
    obtain ⟨ih0, ihub, ihat⟩ := ih
    refine ⟨le_trans ih0 (le_max_right _ _), ?_, ?_⟩
    · intro j' hj'
      rcases List.mem_cons.mp hj' with h | h
      · subst h; exact le_max_left _ _
      · exact le_trans (ihub j' h) (le_max_right _ _)
    · rcases max_choice (calculate_similarity w (spoken.getD j []))
          (l.foldr (fun j m => max (calculate_similarity w (spoken.getD j [])) m) 0)
        with hm | hm
      · exact Or.inr ⟨j, List.mem_cons_self _ _, hm.symm⟩
      · rcases ihat with h0 | ⟨j', hj', he⟩
        · exact Or.inl (hm.trans h0)
        · exact Or.inr ⟨j', List.mem_cons_of_mem _ hj', he.trans hm.symm⟩

theorem bestUnconsumed_spec (w : List Char) (spoken : List (List Char))
    (used : List ℕ) :
    0 ≤ bestUnconsumed w spoken used ∧
    (∀ j, j < spoken.length → j ∉ used →
      calculate_similarity w (spoken.getD j []) ≤ bestUnconsumed w spoken used) ∧
    (bestUnconsumed w spoken used = 0 ∨
      ∃ j, j < spoken.length ∧ j ∉ used ∧
        calculate_similarity w (spoken.getD j []) = bestUnconsumed w spoken used) := by
  have h := foldrMax_spec w spoken
    ((List.range spoken.length).filter fun j => decide (j ∉ used))
  obtain ⟨h0, hub, hat⟩ := h
  refine ⟨h0, ?_, ?_⟩
  · intro j hj hju
    exact hub j (by simp [List.mem_filter, List.mem_range, hj, hju])
  · rcases hat with h | ⟨j, hj, he⟩
    · exact Or.inl h
    · refine Or.inr ⟨j, ?_, ?_, he⟩
      · simpa using (List.mem_filter.mp hj).1
      · simpa using (List.mem_filter.mp hj).2

theorem ctScan_spec (w : List Char) (spoken : List (List Char))
    (used : List ℕ) :
    ∀ (js : List ℕ) (best : Option ℕ × ℚ),
      (∀ j ∈ js, j < spoken.length) → CtInv w spoken used best →
      CtInv w spoken used (ctScan w spoken used js best) ∧
      best.2 ≤ (ctScan w spoken used js best).2 ∧
      (∀ j ∈ js, j ∉ used → calculate_similarity w (spoken.getD j []) ≤
        (ctScan w spoken used js best).2) ∧
      ((ctScan w spoken used js best).2 = best.2 ∨
        ∃ j ∈ js, j ∉ used ∧ calculate_similarity w (spoken.getD j []) =
          (ctScan w spoken used js best).2) := by
  intro js
  induction js with
  | nil =>
    intro best _ hinv
    exact ⟨hinv, le_rfl, by simp, Or.inl rfl⟩
  | cons j js ih =>
    intro best hjs hinv
    by_cases hju : j ∈ used
    · have hrec := ih best (fun j' hj' => hjs j' (List.mem_cons_of_mem _ hj'))
        hinv
      simp only [ctScan, if_pos hju]
      refine ⟨hrec.1, hrec.2.1, ?_, ?_⟩
      · intro j' hj' hj'u
        rcases List.mem_cons.mp hj' with h | h
        · exact absurd (h ▸ hju) hj'u
        · exact hrec.2.2.1 j' h hj'u
      · rcases hrec.2.2.2 with h | ⟨j', hj', hu, he⟩
        · exact Or.inl h
        · exact Or.inr ⟨j', List.mem_cons_of_mem _ hj', hu, he⟩
    · simp only [ctScan, if_neg hju]
      by_cases hlt : best.2 < calculate_similarity w (spoken.getD j [])
      · simp only [if_pos hlt]
        have hinv' : CtInv w spoken used
            (some j, calculate_similarity w (spoken.getD j [])) := by
          refine ⟨le_trans hinv.1 (le_of_lt hlt), by simp, ?_⟩
          intro j' hj'
          obtain rfl : j = j' := by simpa using hj'
          exact ⟨hju, hjs j (List.mem_cons_self _ _), rfl⟩
        have hrec := ih _ (fun j' hj' => hjs j' (List.mem_cons_of_mem _ hj'))
          hinv'
        refine ⟨hrec.1, le_trans (le_of_lt hlt) hrec.2.1, ?_, ?_⟩
        · intro j' hj' hj'u
          rcases List.mem_cons.mp hj' with h | h
          · subst h; exact hrec.2.1
          · exact hrec.2.2.1 j' h hj'u
        · rcases hrec.2.2.2 with h | ⟨j', hj', hu, he⟩
          · exact Or.inr ⟨j, List.mem_cons_self _ _, hju, by simpa using h.symm⟩
          · exact Or.inr ⟨j', List.mem_cons_of_mem _ hj', hu, he⟩
      · simp only [if_neg hlt]
        have hrec := ih best (fun j' hj' => hjs j' (List.mem_cons_of_mem _ hj'))
          hinv
        refine ⟨hrec.1, hrec.2.1, ?_, ?_⟩
        · intro j' hj' hj'u
          rcases List.mem_cons.mp hj' with h | h
          · subst h; exact le_trans (not_lt.mp hlt) hrec.2.1
          · exact hrec.2.2.1 j' h hj'u
        · rcases hrec.2.2.2 with h | ⟨j', hj', hu, he⟩
          · exact Or.inl h
          · exact Or.inr ⟨j', List.mem_cons_of_mem _ hj', hu, he⟩

theorem searchRange_mem {p len : ℕ} (hlen : 0 < len) :
    ∀ j, j ∈ searchRange p len ↔ j < len := by
  intro j
  unfold searchRange
  simp only [List.mem_append, List.mem_range'_1, List.mem_range]
  omega

theorem ctScan_value (w : List Char) (spoken : List (List Char))
    (used : List ℕ) (p : ℕ) (hlen : 0 < spoken.length) :
    (ctScan w spoken used (searchRange p spoken.length) (none, 0)).2 =
      bestUnconsumed w spoken used ∧
    CtInv w spoken used
      (ctScan w spoken used (searchRange p spoken.length) (none, 0)) := by
  have hjs : ∀ j ∈ searchRange p spoken.length, j < spoken.length :=
    fun j hj => (searchRange_mem hlen j).mp hj
  have hinv0 : CtInv w spoken used ((none : Option ℕ), (0 : ℚ)) :=
    ⟨le_rfl, fun _ => rfl, by simp⟩
  obtain ⟨hinv, _, hub, hat⟩ := ctScan_spec w spoken used
    (searchRange p spoken.length) (none, 0) hjs hinv0
  obtain ⟨b0, bub, bat⟩ := bestUnconsumed_spec w spoken used
  refine ⟨le_antisymm ?_ ?_, hinv⟩
  · rcases hat with h | ⟨j, hj, hu, he⟩
    · rw [h]; exact b0
    · rw [← he]
      exact bub j ((searchRange_mem hlen j).mp hj) hu
  · rcases bat with h | ⟨j, hj, hu, he⟩
    · rw [h]; exact hinv.1
    · rw [← he]
      exact hub j ((searchRange_mem hlen j).mpr hj) hu

theorem compareStep_of_scan_none {spoken : List (List Char)}
    {is_final : Bool} {p : ℕ} {w : List Char} {used : List ℕ} {sv : ℚ}
    (hsp : ¬ spoken = [])
    (hscan : ctScan w spoken used (searchRange p spoken.length) (none, 0) =
      (none, sv)) :
    compareStep spoken is_final p w used =
      (⟨p, w, none, .skipped, none⟩, used,
        ⟨0, 0, if is_final then 1 else 0⟩) := by
  unfold compareStep
  rw [if_neg hsp, hscan]

theorem compareStep_of_scan_some {spoken : List (List Char)}
    {is_final : Bool} {p : ℕ} {w : List Char} {used : List ℕ} {j : ℕ}
    {sv : ℚ} (hsp : ¬ spoken = [])
    (hscan : ctScan w spoken used (searchRange p spoken.length) (none, 0) =
      (some j, sv)) :
    compareStep spoken is_final p w used =
      (if similarity_threshold ≤ sv then
        (⟨p, w, some (spoken.getD j []),
            (if is_final then .matched else .provis_matched), some sv⟩,
          j :: used, ⟨(if is_final then 1 else 0), 0, 0⟩)
      else if 3/10 < sv then
        (⟨p, w, some (spoken.getD j []),
            (if is_final then .mismatched else .provis_mismatched), some sv⟩,
          j :: used, ⟨0, (if is_final then 1 else 0), 0⟩)
      else
        (⟨p, w, none, .skipped, none⟩, used,
          ⟨0, 0, if is_final then 1 else 0⟩)) := by
  unfold compareStep
  rw [if_neg hsp, hscan]

/-- **C1.** Each expected word is classified by its best similarity score
`s` against the unconsumed spoken tokens (`bestUnconsumed`, the maximum
the candidate scan computes; `compare_transcript` iterates `compareStep`
over the expected words via `compareLoop`): when `s ≥ 0.7` some
unconsumed spoken index attaining `s` is consumed and the status is
`Matched` (final) / `ProvisionalMatched` (provisional); when
`0.3 < s < 0.7` such an index is likewise consumed and the status is
`Mismatched` / `ProvisionalMismatched`; when `s ≤ 0.3` (including the
no-candidate case, where `s = 0`) nothing is consumed and the status is
`Skipped` in both modes.  The matched/mismatched/skipped counter is
incremented accordingly, and only on final calls. -/
theorem c1_classification_by_best_score (spoken : List (List Char))
    (is_final : Bool) (p : ℕ) (w : List Char) (used : List ℕ) :
    (compareStep spoken is_final p w used).1.status =
      (if similarity_threshold ≤ bestUnconsumed w spoken used then
        (if is_final then TranscriptStatus.matched
          else TranscriptStatus.provis_matched)
      else if 3/10 < bestUnconsumed w spoken used then
        (if is_final then TranscriptStatus.mismatched
          else TranscriptStatus.provis_mismatched)
      else TranscriptStatus.skipped) ∧
    (if 3/10 < bestUnconsumed w spoken used then
      ∃ j, j ∉ used ∧ j < spoken.length ∧
        calculate_similarity w (spoken.getD j []) =
          bestUnconsumed w spoken used ∧
        (compareStep spoken is_final p w used).2.1 = j :: used ∧
        (compareStep spoken is_final p w used).1.spoken =
          some (spoken.getD j []) ∧
        (compareStep spoken is_final p w used).1.similarity_score =
          some (bestUnconsumed w spoken used)
    else
      (compareStep spoken is_final p w used).2.1 = used ∧
      (compareStep spoken is_final p w used).1.spoken = none ∧
      (compareStep spoken is_final p w used).1.similarity_score = none) ∧
    (compareStep spoken is_final p w used).2.2 =
      (if similarity_threshold ≤ bestUnconsumed w spoken used then
        ⟨(if is_final then 1 else 0), 0, 0⟩
      else if 3/10 < bestUnconsumed w spoken used then
        ⟨0, (if is_final then 1 else 0), 0⟩
      else ⟨0, 0, (if is_final then 1 else 0)⟩) ∧
    ∀ (ws : List (List Char)),
      compareLoop spoken is_final (w :: ws) p used =
        ((compareStep spoken is_final p w used).1 ::
            (compareLoop spoken is_final ws (p + 1)
              (compareStep spoken is_final p w used).2.1).1,
          ((compareStep spoken is_final p w used).2.2).add
            (compareLoop spoken is_final ws (p + 1)
              (compareStep spoken is_final p w used).2.1).2) := by
  by_cases hsp : spoken = []
  · subst hsp
    have hb : bestUnconsumed w [] used = 0 := rfl
    rw [hb]
    have h07 : ¬ (similarity_threshold ≤ (0 : ℚ)) := by
      rw [similarity_threshold]; norm_num
    have h03 : ¬ ((3 : ℚ)/10 < 0) := by norm_num
    have hstep : compareStep [] is_final p w used =
        (⟨p, w, none, .skipped, none⟩, used,
          ⟨0, 0, if is_final then 1 else 0⟩) := rfl
    refine ⟨?_, ?_, ?_, fun ws => rfl⟩
    · rw [hstep]; simp only [if_neg h07, if_neg h03]
    · rw [if_neg h03, hstep]; exact ⟨rfl, rfl, rfl⟩
    · rw [hstep]; simp only [if_neg h07, if_neg h03]
  · have hlen : 0 < spoken.length := List.length_pos.mpr hsp
    obtain ⟨hval, hinv⟩ := ctScan_value w spoken used p hlen
    rcases hscan : ctScan w spoken used (searchRange p spoken.length)
        (none, 0) with ⟨oi, sv⟩
    rw [hscan] at hval hinv
    simp only at hval
    cases oi with
    | none =>
      have hsv : sv = 0 := hinv.2.1 rfl
      have hb : bestUnconsumed w spoken used = 0 := by rw [← hval, hsv]
      rw [hb]
      have h07 : ¬ (similarity_threshold ≤ (0 : ℚ)) := by
        rw [similarity_threshold]; norm_num
      have h03 : ¬ ((3 : ℚ)/10 < 0) := by norm_num
      have hstep := @compareStep_of_scan_none spoken is_final p w used sv hsp hscan
      refine ⟨?_, ?_, ?_, fun ws => rfl⟩
      · rw [hstep]; simp only [if_neg h07, if_neg h03]
      · rw [if_neg h03, hstep]; exact ⟨rfl, rfl, rfl⟩
      · rw [hstep]; simp only [if_neg h07, if_neg h03]
    | some j =>
      obtain ⟨hju, hjlen, hsim⟩ := hinv.2.2 j rfl
      simp only at hsim
      have hstep := @compareStep_of_scan_some spoken is_final p w used j sv hsp hscan
      rw [← hval]
      by_cases h07 : similarity_threshold ≤ sv
      · have h03 : (3 : ℚ)/10 < sv := by
          have : (3 : ℚ)/10 < similarity_threshold := by
            rw [similarity_threshold]; norm_num
          linarith
        refine ⟨?_, ?_, ?_, fun ws => rfl⟩
        · rw [hstep]; simp only [if_pos h07]
        · rw [if_pos h03]
          exact ⟨j, hju, hjlen, hsim, by rw [hstep]; simp only [if_pos h07],
            by rw [hstep]; simp only [if_pos h07],
            by rw [hstep]; simp only [if_pos h07]⟩
        · rw [hstep]; simp only [if_pos h07]
      · by_cases h03 : (3 : ℚ)/10 < sv
        · refine ⟨?_, ?_, ?_, fun ws => rfl⟩
          · rw [hstep]; simp only [if_neg h07, if_pos h03]
          · rw [if_pos h03]
            exact ⟨j, hju, hjlen, hsim,
              by rw [hstep]; simp only [if_neg h07, if_pos h03],
              by rw [hstep]; simp only [if_neg h07, if_pos h03],
              by rw [hstep]; simp only [if_neg h07, if_pos h03]⟩
          · rw [hstep]; simp only [if_neg h07, if_pos h03]
        · refine ⟨?_, ?_, ?_, fun ws => rfl⟩
          · rw [hstep]; simp only [if_neg h07, if_neg h03]
          · rw [if_neg h03, hstep, if_neg h07, if_neg h03]
            exact ⟨rfl, rfl, rfl⟩
          · rw [hstep]; simp only [if_neg h07, if_neg h03]

/-! ## `SequenceMatcher` reflexivity (C10): chain combinatorics -/

theorem get?_eq_some_getD {l : List Char} {j : ℕ} (h : j < l.length) :
    l.get? j = some (l.getD j ' ') := by
  rw [List.get?_eq_getElem?, List.getElem?_eq_getElem h,
    List.getD_eq_getElem?_getD, List.getElem?_eq_getElem h]
  rfl

theorem linkB_lt {a : List Char} {i j : ℕ} (h : linkB a i j) :
    j < a.length := by
  unfold linkB b2j at h
  split at h
  · simp at h
  · unfold occIdx at h
    simpa using (List.mem_filter.mp h).1

theorem linkB_iff {a : List Char} {i j : ℕ} (_hi : i < a.length) :
    linkB a i j ↔
      j < a.length ∧ a.getD j ' ' = a.getD i ' ' ∧
        isPopular a (a.getD i ' ') = false := by
  unfold linkB b2j occIdx
  by_cases hp : isPopular a (a.getD i ' ') = true
  · rw [if_pos hp]
    simp only [List.not_mem_nil, false_iff]
    rintro ⟨h1, h2, h3⟩
    rw [hp] at h3
    exact absurd h3 (by decide)
  · have hp' : isPopular a (a.getD i ' ') = false := by
      cases hpp : isPopular a (a.getD i ' ')
      · rfl
      · exact absurd hpp hp
    rw [if_neg hp]
    simp only [List.mem_filter, List.mem_range, decide_eq_true_eq, hp',
      and_true]
    constructor
    · rintro ⟨h1, h2⟩
      rw [get?_eq_some_getD h1] at h2
      exact ⟨h1, by simpa using h2⟩
    · rintro ⟨h1, h2⟩
      exact ⟨h1, by rw [get?_eq_some_getD h1, h2]⟩

theorem chain_zero_of_not_link {a : List Char} {i j : ℕ}
    (h : ¬ linkB a i j) : chain a i j = 0 := by
  cases i <;> simp [chain, h]

theorem chain_pos_link {a : List Char} {i j : ℕ} (h : chain a i j ≠ 0) :
    linkB a i j := by
  by_contra hc
  exact h (chain_zero_of_not_link hc)

theorem chain_le_row (a : List Char) : ∀ i j, chain a i j ≤ i + 1 := by
  intro i
  induction i with
  | zero => intro j; simp only [chain]; split <;> omega
  | succ i ih =>
    intro j
    simp only [chain]
    split
    · split
      · omega
      · have := ih (j - 1); omega
    · omega

theorem chain_le_col (a : List Char) : ∀ i j, chain a i j ≤ j + 1 := by
  intro i
  induction i with
  | zero => intro j; simp only [chain]; split <;> omega
  | succ i ih =>
    intro j
    simp only [chain]
    split
    · split
      · omega
      · have := ih (j - 1); omega
    · omega

theorem chain_links {a : List Char} :
    ∀ i j s, s < chain a i j → linkB a (i - s) (j - s) := by
  intro i
  induction i with
  | zero =>
    intro j s hs
    have h1 : chain a 0 j ≤ 1 := chain_le_row a 0 j
    have hs0 : s = 0 := by omega
    subst hs0
    have hpos : chain a 0 j ≠ 0 := by omega
    simpa using chain_pos_link hpos
  | succ i ih =>
    intro j s hs
    have hlink : linkB a (i + 1) j := chain_pos_link (by omega)
    cases s with
    | zero => simpa using hlink
    | succ s' =>
      rw [chain, if_pos hlink] at hs
      rcases Nat.eq_zero_or_pos j with hj | hj
      · subst hj; simp at hs
      · rw [if_neg (by omega)] at hs
        have := ih (j - 1) s' (by omega)
        have e1 : i + 1 - (s' + 1) = i - s' := by omega
        have e2 : j - (s' + 1) = j - 1 - s' := by omega
        rw [e1, e2]
        exact this

theorem chain_diag_build {a : List Char} :
    ∀ i r, (∀ s < r, linkB a (i - s) (i - s)) → r ≤ i + 1 →
      r ≤ chain a i i := by
  intro i
  induction i with
  | zero =>
    intro r hl hr
    rcases Nat.eq_zero_or_pos r with h0 | h0
    · omega
    · have : r = 1 := by omega
      subst this
      have := hl 0 (by omega)
      simp only [Nat.sub_zero] at this
      rw [chain, if_pos this]
  | succ i ih =>
    intro r hl hr
    rcases Nat.eq_zero_or_pos r with h0 | h0
    · omega
    · have hlink : linkB a (i + 1) (i + 1) := by
        have := hl 0 (by omega)
        simpa using this
      rw [chain, if_pos hlink, if_neg (by omega : ¬ i + 1 = 0)]
      have hrec := ih (r - 1) (fun s hs => by
        have := hl (s + 1) (by omega)
        have e : i + 1 - (s + 1) = i - s := by omega
        rwa [e] at this) (by omega)
      simp only [Nat.add_sub_cancel]
      omega

theorem chain_symm (a : List Char) :
    ∀ m i j, i + j = m → i < a.length → j < a.length →
      chain a i j = chain a j i := by
  intro m
  induction m using Nat.strong_induction_on with
  | _ m ih =>
    intro i j hm hi hj
    have hsym : linkB a i j ↔ linkB a j i := by
      rw [linkB_iff hi, linkB_iff hj]
      constructor
      · rintro ⟨h1, h2, h3⟩
        exact ⟨hi, h2.symm, by rwa [h2]⟩
      · rintro ⟨h1, h2, h3⟩
        exact ⟨hj, h2.symm, by rwa [h2]⟩
    cases i with
    | zero =>
      cases j with
      | zero => rfl
      | succ j' =>
        simp only [chain, if_true]
        by_cases hl : linkB a 0 (j' + 1)
        · rw [if_pos hl, if_pos (hsym.mp hl)]
        · rw [if_neg hl, if_neg (fun hc => hl (hsym.mpr hc))]
    | succ i' =>
      cases j with
      | zero =>
        simp only [chain, if_true]
        by_cases hl : linkB a (i' + 1) 0
        · rw [if_pos hl, if_pos (hsym.mp hl)]
        · rw [if_neg hl, if_neg (fun hc => hl (hsym.mpr hc))]
      | succ j' =>
        simp only [chain, if_neg (by omega : ¬ i' + 1 = 0),
          if_neg (by omega : ¬ j' + 1 = 0), Nat.add_sub_cancel]
        have hrec : chain a i' j' = chain a j' i' :=
          ih (i' + j') (by omega) i' j' rfl (by omega) (by omega)
        by_cases hl : linkB a (i' + 1) (j' + 1)
        · rw [if_pos hl, if_pos (hsym.mp hl), hrec]
        · rw [if_neg hl, if_neg (fun hc => hl (hsym.mpr hc))]

theorem chain_diag_ge {a : List Char} {i j : ℕ} (hi : i < a.length) :
    chain a i j ≤ chain a i i := by
  rcases Nat.eq_zero_or_pos (chain a i j) with h0 | h0
  · omega
  · apply chain_diag_build i (chain a i j) _ (chain_le_row a i j)
    intro s hs
    have hl := chain_links i j s hs
    have his : i - s < a.length := by omega
    obtain ⟨h1, h2, h3⟩ := (linkB_iff his).mp hl
    exact (linkB_iff his).mpr ⟨his, rfl, h3⟩

theorem chain_step {a : List Char} {i j : ℕ} (h : linkB a i j) :
    chain a i j =
      (if j = 0 then 0 else (if i = 0 then 0 else chain a (i - 1) (j - 1))) + 1 := by
  cases i with
  | zero => simp [chain, h]
  | succ i => simp [chain, h]

theorem smInner_chainInv (a : List Char) {i : ℕ} {f : ℕ → ℕ}
    (hf : ∀ j, f j = if i = 0 then 0 else chain a (i - 1) j) :
    ∀ (js : List ℕ) (ℓ : ℕ) (newacc : ℕ → ℕ) (best : ℕ × ℕ × ℕ),
      js.Pairwise (· < ·) →
      (∀ j ∈ js, ℓ ≤ j ∧ linkB a i j) →
      (∀ j, ℓ ≤ j → linkB a i j → j ∈ js) →
      ChainInvStep a i ℓ best →
      ChainInv a (i + 1) (smInner f i 0 a.length js newacc best).2 := by
  intro js
  induction js with
  | nil =>
    intro ℓ newacc best _ _ hcover hinv
    obtain ⟨h1, h2, h3, h4⟩ := hinv
    simp only [smInner]
    refine ⟨?_, h3, ?_⟩
    · intro i' hi' j
      rcases Nat.lt_succ_iff_lt_or_eq.mp hi' with h | h
      · exact h1 i' h j
      · subst h
        by_cases hj : j < ℓ
        · exact h2 j hj
        · have hnl : ¬ linkB a i' j := fun hl => by
            simpa using hcover j (by omega) hl
          rw [chain_zero_of_not_link hnl]
          exact Nat.zero_le _
    · intro hbs
      obtain ⟨iw, jw, hw, hc, he1, he2, hdi, hdj⟩ := h4 hbs
      exact ⟨iw, jw, by omega, hc, he1, he2, hdi, hdj⟩
  | cons j₀ js ih =>
    intro ℓ newacc best hpair hmem hcover hinv
    obtain ⟨hℓ₀, hlink⟩ := hmem j₀ (List.mem_cons_self _ _)
    have hjlt : j₀ < a.length := linkB_lt hlink
    have hpair' := List.pairwise_cons.mp hpair
    have hk : (if j₀ = 0 then 0 else f (j₀ - 1)) + 1 = chain a i j₀ := by
      rw [chain_step hlink]
      congr 1
      split
      · rfl
      · rw [hf]
    have hkpos : chain a i j₀ ≠ 0 := by rw [← hk]; omega
    have hsmall : ∀ j' < j₀, chain a i j' ≤ best.2.2 := by
      intro j' hj'
      by_cases hjl : j' < ℓ
      · exact hinv.2.1 j' hjl
      · have hnl : ¬ linkB a i j' := by
          intro hl
          rcases List.mem_cons.mp (hcover j' (by omega) hl) with h | h
          · omega
          · exact absurd (hpair'.1 j' h) (by omega)
        rw [chain_zero_of_not_link hnl]
        exact Nat.zero_le _
    simp only [smInner]
    rw [if_neg (Nat.not_lt_zero j₀), if_neg (by omega : ¬ a.length ≤ j₀), hk]
    apply ih (j₀ + 1) _ _ hpair'.2
    · intro j hj
      exact ⟨by have := hpair'.1 j hj; omega, (hmem j (List.mem_cons_of_mem _ hj)).2⟩
    · intro j hj hl
      rcases List.mem_cons.mp (hcover j (by omega) hl) with h | h
      · omega
      · exact h
    · by_cases hless : best.2.2 < chain a i j₀
      · rw [if_pos hless]
        refine ⟨?_, ?_, ?_, ?_⟩
        · intro i' hi' j
          exact le_trans (hinv.1 i' hi' j) (le_of_lt hless)
        · intro j hj
          rcases Nat.lt_succ_iff_lt_or_eq.mp hj with h | h
          · exact le_trans (hsmall j h) (le_of_lt hless)
          · subst h; exact le_rfl
        · intro h0; exact absurd h0 hkpos
        · intro _
          refine ⟨i, j₀, Or.inr ⟨rfl, by omega⟩, rfl, rfl, rfl, ?_, ?_⟩
          · intro i' hi' j'
            exact lt_of_le_of_lt (hinv.1 i' hi' j') hless
          · intro j' hj'
            exact lt_of_le_of_lt (hsmall j' hj') hless
      · rw [if_neg hless]
        refine ⟨hinv.1, ?_, hinv.2.2.1, ?_⟩
        · intro j hj
          rcases Nat.lt_succ_iff_lt_or_eq.mp hj with h | h
          · exact hsmall j h
          · subst h; omega
        · intro hbs
          obtain ⟨iw, jw, hw, hc, he1, he2, hdi, hdj⟩ := hinv.2.2.2 hbs
          refine ⟨iw, jw, ?_, hc, he1, he2, hdi, hdj⟩
          rcases hw with h | ⟨h, h'⟩
          · exact Or.inl h
          · exact Or.inr ⟨h, by omega⟩

theorem smInner_newj (a : List Char) (f : ℕ → ℕ) (i : ℕ) :
    ∀ (js : List ℕ) (newacc : ℕ → ℕ) (best : ℕ × ℕ × ℕ),
      js.Nodup → (∀ j ∈ js, j < a.length) →
      ∀ j, (smInner f i 0 a.length js newacc best).1 j =
        if j ∈ js then (if j = 0 then 0 else f (j - 1)) + 1 else newacc j := by
  intro js
  induction js with
  | nil => intro newacc best _ _ j; simp [smInner]
  | cons j₀ js ih =>
    intro newacc best hnd hlt j
    have hj₀ : j₀ < a.length := hlt j₀ (List.mem_cons_self _ _)
    simp only [smInner]
    rw [if_neg (Nat.not_lt_zero j₀), if_neg (by omega : ¬ a.length ≤ j₀)]
    rw [ih _ _ (List.nodup_cons.mp hnd).2
      (fun j' hj' => hlt j' (List.mem_cons_of_mem _ hj')) j]
    by_cases hjs : j ∈ js
    · rw [if_pos hjs, if_pos (List.mem_cons_of_mem _ hjs)]
    · rw [if_neg hjs]
      by_cases hje : j = j₀
      · subst hje
        rw [if_pos rfl, if_pos (List.mem_cons_self _ _)]
      · rw [if_neg hje, if_neg (by simp [hje, hjs])]

theorem smOuter_chain (a : List Char) :
    ∀ (cnt i : ℕ) (st : (ℕ → ℕ) × (ℕ × ℕ × ℕ)),
      i + cnt = a.length →
      (∀ j, st.1 j = if i = 0 then 0 else chain a (i - 1) j) →
      ChainInv a i st.2 →
      ChainInv a a.length
        (smOuter a a 0 a.length (List.range' i cnt) st).2 := by
  intro cnt
  induction cnt with
  | zero =>
    intro i st hi _ hinv
    have : i = a.length := by omega
    subst this
    simpa [smOuter] using hinv
  | succ cnt ihc =>
    intro i st hi hf hinv
    rw [List.range'_succ]
    simp only [smOuter]
    have hjs_link : ∀ j, j ∈ b2j a (a.getD i ' ') ↔ linkB a i j := by
      intro j; rfl
    have hjs_pair : (b2j a (a.getD i ' ')).Pairwise (· < ·) := by
      unfold b2j occIdx
      split
      · exact List.Pairwise.nil
      · exact (List.pairwise_lt_range _).filter _
    have hjs_lt : ∀ j ∈ b2j a (a.getD i ' '), j < a.length :=
      fun j hj => linkB_lt ((hjs_link j).mp hj)
    have hstep : ChainInvStep a i 0 st.2 := by
      obtain ⟨h1, h2, h3⟩ := hinv
      refine ⟨h1, by omega, h2, ?_⟩
      intro hbs
      obtain ⟨iw, jw, hw, hc, he1, he2, hdi, hdj⟩ := h3 hbs
      exact ⟨iw, jw, Or.inl hw, hc, he1, he2, hdi, hdj⟩
    have hinner := smInner_chainInv a hf (b2j a (a.getD i ' ')) 0
      (fun _ => 0) st.2 hjs_pair
      (fun j hj => ⟨Nat.zero_le _, (hjs_link j).mp hj⟩)
      (fun j _ hl => (hjs_link j).mpr hl) hstep
    have hnewf : ∀ j,
        (smInner st.1 i 0 a.length (b2j a (a.getD i ' ')) (fun _ => 0) st.2).1 j =
          if i + 1 = 0 then 0 else chain a (i + 1 - 1) j := by
      intro j
      rw [smInner_newj a st.1 i _ _ _
        (hjs_pair.imp fun h => Nat.ne_of_lt h) hjs_lt j]
      rw [if_neg (by omega : ¬ i + 1 = 0)]
      simp only [Nat.add_sub_cancel]
      by_cases hl : linkB a i j
      · rw [if_pos ((hjs_link j).mpr hl), chain_step hl]
        congr 1
        split
        · rfl
        · rw [hf]
      · rw [if_neg (fun hm => hl ((hjs_link j).mp hm)),
          chain_zero_of_not_link hl]
    exact ihc (i + 1) _ (by omega) hnewf hinner

theorem chainInv_diag {a : List Char} {best : ℕ × ℕ × ℕ}
    (h : ChainInv a a.length best) : best.1 = best.2.1 := by
  obtain ⟨h1, h2, h3⟩ := h
  rcases Nat.eq_zero_or_pos best.2.2 with h0 | h0
  · obtain ⟨e1, e2⟩ := h2 h0
    rw [e1, e2]
  · obtain ⟨iw, jw, hiw, hchain, he1, he2, hdomi, hdomj⟩ := h3 (by omega)
    have hjwlen : jw < a.length :=
      linkB_lt (@chain_pos_link a iw jw (by omega))
    rcases lt_trichotomy jw iw with hlt | heq | hgt
    · exfalso
      have hsym := chain_symm a (iw + jw) iw jw rfl (by omega) hjwlen
      have := hdomi jw hlt iw
      omega
    · rw [he1, he2, heq]
    · exfalso
      have hd := @chain_diag_ge a iw jw (by omega)
      have := hdomj iw hgt
      omega

theorem extendLow_diag (a : List Char) :
    ∀ (fuel bi bs : ℕ), bi ≤ fuel →
      extendLow fuel a a 0 0 (bi, bi, bs) = (0, 0, bs + bi) := by
  intro fuel
  induction fuel with
  | zero =>
    intro bi bs hbi
    have : bi = 0 := by omega
    subst this
    simp [extendLow]
  | succ fuel ih =>
    intro bi bs hbi
    cases bi with
    | zero => simp [extendLow]
    | succ b =>
      rw [extendLow, if_pos ⟨by omega, by omega, rfl⟩]
      simp only [Nat.add_sub_cancel]
      rw [ih b (bs + 1) (by omega)]
      have hbs : bs + 1 + b = bs + (b + 1) := by omega
      rw [hbs]

theorem extendHigh_diag (a : List Char) :
    ∀ (fuel s : ℕ), s ≤ a.length → a.length ≤ fuel + s →
      extendHigh fuel a a a.length a.length (0, 0, s) = (0, 0, a.length) := by
  intro fuel
  induction fuel with
  | zero =>
    intro s h1 h2
    have : s = a.length := by omega
    subst this
    simp [extendHigh]
  | succ fuel ih =>
    intro s h1 h2
    by_cases hs : s < a.length
    · rw [extendHigh, if_pos ⟨by simpa using hs, by simpa using hs, rfl⟩]
      exact ih (s + 1) (by omega) (by omega)
    · have : s = a.length := by omega
      subst this
      rw [extendHigh, if_neg (by omega)]

theorem flm_self (a : List Char) :
    find_longest_match a a 0 a.length 0 a.length = (0, 0, a.length) := by
  have hmain : ChainInv a a.length
      (smOuter a a 0 a.length (List.range' 0 a.length) ((fun _ => 0), (0, 0, 0))).2 :=
    smOuter_chain a a.length 0 ((fun _ => 0), (0, 0, 0)) (by omega)
      (by intro j; simp) ⟨by omega, fun _ => ⟨rfl, rfl⟩, fun h => absurd rfl h⟩
  have hgood : GoodBest 0 a.length 0 a.length
      (smOuter a a 0 a.length (List.range' 0 a.length)
        ((fun _ => 0), (0, 0, 0))).2 :=
    smOuter_inv a.length 0 0 _ rfl (by omega)
      (fun j => ⟨le_rfl, fun hne => absurd rfl hne⟩)
      ⟨le_rfl, le_rfl, fun _ => ⟨rfl, rfl⟩, fun hne => absurd rfl hne⟩
  show extendHigh a.length a a a.length a.length
      (extendLow
        (smOuter a a 0 a.length (List.range' 0 a.length) ((fun _ => 0), (0, 0, 0))).2.1
        a a 0 0
        (smOuter a a 0 a.length (List.range' 0 a.length) ((fun _ => 0), (0, 0, 0))).2)
      = (0, 0, a.length)
  revert hmain hgood
  generalize (smOuter a a 0 a.length (List.range' 0 a.length)
    ((fun _ => 0), (0, 0, 0))).2 = m
  intro hmain hgood
  obtain ⟨x, y, z⟩ := m
  have hdiag : x = y := chainInv_diag hmain
  subst hdiag
  obtain ⟨g1, g2, g3, g4⟩ := hgood
  have hsle : z + x ≤ a.length := by
    rcases Nat.eq_zero_or_pos z with h0 | h0
    · have e1 : x = 0 := (g3 h0).1
      omega
    · have h4 : x + z ≤ a.length := (g4 (Nat.pos_iff_ne_zero.mp h0)).1
      omega
  rw [extendLow_diag a (x, x, z).1 x z le_rfl,
    extendHigh_diag a a.length (z + x) hsle (by omega)]

theorem matchingTotal_self (a : List Char) : matchingTotal a a = a.length := by
  unfold matchingTotal
  rcases Nat.eq_zero_or_pos a.length with h0 | h0
  · rw [h0]
    rfl
  · obtain ⟨fuel, hf⟩ : ∃ fuel, a.length + a.length = fuel + 1 :=
      ⟨a.length + a.length - 1, by omega⟩
    rw [hf, mtFuel, flm_self]
    simp [Nat.pos_iff_ne_zero.mp h0]

theorem seqRatio_self (a : List Char) : seqRatio a a = 1 := by
  unfold seqRatio
  rcases Nat.eq_zero_or_pos a.length with h0 | h0
  · rw [if_pos (by omega)]
  · rw [if_neg (by omega), matchingTotal_self]
    have hpos : (0 : ℚ) < (a.length : ℚ) + (a.length : ℚ) := by
      have : (0 : ℚ) < (a.length : ℚ) := by exact_mod_cast h0
      linarith
    rw [div_eq_one_iff_eq hpos.ne']
    ring

theorem cwsScan_keep_max (w1 : List Char) (used : List ℕ) :
    ∀ (l : List (ℕ × List Char)) (i : Option ℕ),
      cwsScan w1 used l (i, 1) = (i, 1) := by
  intro l
  induction l with
  | nil => intro i; rfl
  | cons e rest ih =>
    intro i
    rcases e with ⟨j, w2⟩
    simp only [cwsScan]
    split
    · exact ih i
    · rw [if_neg (by
        rintro ⟨hlt, _⟩
        exact absurd hlt (not_lt.mpr (seqRatio_le_one w1 w2)))]
      exact ih i

theorem cwsScan_id (w1 : List Char) (p : ℕ) (used : List ℕ)
    (hused : ∀ j, j ∈ used ↔ j < p) :
    ∀ (l : List (List Char)) (k : ℕ),
      k ≤ p → p - k < l.length → l.getD (p - k) [] = w1 →
      cwsScan w1 used (List.enumFrom k l) (none, 0) = (some p, 1) := by
  intro l
  induction l with
  | nil => intro k _ h _; simp at h
  | cons w rest ih =>
    intro k hk hlt hget
    rw [List.enumFrom_cons]
    simp only [cwsScan]
    by_cases hkp : k = p
    · subst hkp
      rw [if_neg (fun hmem => absurd ((hused k).mp hmem) (lt_irrefl k))]
      have hw : w = w1 := by simpa [Nat.sub_self] using hget
      subst hw
      rw [seqRatio_self]
      rw [if_pos (by constructor <;> norm_num [similarity_threshold])]
      exact cwsScan_keep_max w (used) _ (some k)
    · have hklt : k < p := by omega
      rw [if_pos ((hused k).mpr hklt)]
      have hsub : p - k = (p - (k + 1)) + 1 := by omega
      rw [hsub] at hlt hget
      rw [List.getD_cons_succ] at hget
      exact ih (k + 1) (by omega) (by simpa using hlt) hget

theorem cwsFold_id (ws : List (List Char)) :
    ∀ (rest : List (List Char)) (p : ℕ) (used : List ℕ) (msum : ℚ),
      (∀ j, j ∈ used ↔ j < p) →
      p + rest.length ≤ ws.length →
      (∀ t, t < rest.length → ws.getD (p + t) [] = rest.getD t []) →
      (cwsFold ws rest used msum).1 = msum + rest.length := by
  intro rest
  induction rest with
  | nil => intro p used msum _ _ _; simp [cwsFold]
  | cons w rest ih =>
    intro p used msum hused hlen hpt
    have hlen' : p < ws.length ∧ p + 1 + rest.length ≤ ws.length := by
      simp only [List.length_cons] at hlen
      omega
    have hw : ws.getD p [] = w := by simpa using hpt 0 (by simp)
    have hscan : cwsScan w used ws.enum (none, 0) = (some p, 1) :=
      cwsScan_id w p used hused ws 0 (Nat.zero_le p)
        (by simpa using hlen'.1) (by simpa using hw)
    simp only [cwsFold, hscan]
    have hrec := ih (p + 1) (p :: used) (msum + 1)
      (by
        intro j
        rw [List.mem_cons, hused j]
        omega)
      hlen'.2
      (by
        intro t ht
        have := hpt (t + 1) (by simp only [List.length_cons]; omega)
        have harr : p + (t + 1) = p + 1 + t := by omega
        rw [harr] at this
        simpa [List.getD_cons_succ] using this)
    rw [hrec]
    simp only [List.length_cons]
    push_cast
    ring

theorem calculate_word_similarity_self (ws : List (List Char)) (h : ws ≠ []) :
    calculate_word_similarity ws ws = 1 := by
  unfold calculate_word_similarity
  have hlen : 0 < ws.length := List.length_pos.mpr h
  rw [if_neg (by simp [h]), if_neg (by simp [h])]
  dsimp only
  rw [if_pos (by simpa using hlen)]
  rw [cwsFold_id ws ws 0 [] 0 (by simp) (by simp) (by intro t _; simp)]
  rw [max_self, zero_add]
  exact div_self (Nat.cast_ne_zero.mpr hlen.ne')

theorem pairNormalize_diag (a : List Char) :
    ∃ x, pairNormalize a a = (x, x) := by
  unfold pairNormalize
  split
  · exact ⟨_, rfl⟩
  · exact ⟨_, rfl⟩

/-- C10: similarity is reflexive at the maximum — for every non-empty
string `a`, `calculate_similarity(a, a)` is exactly `1`.  The two inputs
normalize identically, so the `SequenceMatcher` ratio, the Levenshtein
component and (when used) the greedy word similarity each equal `1`, and
both weighted blends (`0.4 + 0.4 + 0.2` and `0.6 + 0.4`) preserve `1`. -/
theorem c10_similarity_reflexive (a : List Char) (h : a ≠ []) :
    calculate_similarity a a = 1 := by
  obtain ⟨x, hx⟩ := pairNormalize_diag a
  unfold calculate_similarity
  rw [if_neg (by simp [h]), hx]
  dsimp only
  rw [seqRatio_self]
  split_ifs with hc hm hm
  · have hne : splitWs x ≠ [] := by
      rcases hc with hc | hc <;> exact List.ne_nil_of_length_pos (by omega)
    rw [calculate_word_similarity_self _ hne]
    norm_num
  · have hne : splitWs x ≠ [] := by
      rcases hc with hc | hc <;> exact List.ne_nil_of_length_pos (by omega)
    rw [calculate_word_similarity_self _ hne, levDistance_self]
    norm_num
  · norm_num
  · rw [levDistance_self]
    norm_num

/-- Witness for C10 at the concrete one-character input `"x"`. -/
theorem c10_similarity_reflexive_witness :
    (['x'] : List Char) ≠ [] ∧ calculate_similarity ['x'] ['x'] = 1 :=
  ⟨by decide, c10_similarity_reflexive ['x'] (by decide)⟩

end FastApi
